import Mathlib

/-!
# Verification of the PubMed client-and-relay application

A shallow embedding, over `List Char` strings, of the pure
request/response-shaping logic of the repository:

* `api.py`: the SQL safety filter `_is_sql_safe`, the SQL extraction
  `_extract_sql_from_text`, and the row-limit enforcement step of the
  `qa` endpoint (the `\blimit\s+(\d+)\b` search/substitute).
* `pubmed_client.py`: the response-reshaping of `esummary`,
  `efetch_pmids` and `fetch_with_abstracts`, with the outbound
  requests and rate-limit sleeps recorded as an explicit effect trace.
* `db.py`: `upsert_articles` and `save_records` over an in-memory
  table model.

Python strings are modelled as `List Char` (ASCII fragment: the
whitespace classes, case mapping and the regex character classes
`\s`, `\d`, `\w` are modelled on their ASCII portions, which is the
alphabet every claim and every statement handled by this code lives
in).  Fallible parts are `Option`-valued; service responses are
explicit parameters holding what the network layer would have parsed.
-/

/-- Python `str` modelled as a list of characters. -/
abbrev Str := List Char

/-- Python's whitespace class (`str.strip`, regex `\s`), ASCII part:
space, tab, newline, carriage return, vertical tab, form feed. -/
def pyIsSpace (c : Char) : Bool :=
  c = ' ' || c = '\t' || c = '\n' || c = '\r' || c = Char.ofNat 11 || c = Char.ofNat 12

/-- Regex word-character class `\w`, ASCII part: letters, digits, underscore. -/
def isWordChar (c : Char) : Bool :=
  c.isAlpha || c.isDigit || c = '_'

/-- Python `str.strip()`. -/
def pyStrip (l : Str) : Str :=
  ((l.dropWhile pyIsSpace).reverse.dropWhile pyIsSpace).reverse

/-- Python `str.rstrip()`. -/
def pyRstrip (l : Str) : Str :=
  (l.reverse.dropWhile pyIsSpace).reverse

/-- Python `str.lower()` (ASCII case mapping). -/
def pyLower (l : Str) : Str := l.map Char.toLower

/-- Python's substring test `pat in s`. -/
def containsSub (pat : Str) : Str → Bool
  | [] => pat.isPrefixOf []
  | c :: rest => pat.isPrefixOf (c :: rest) || containsSub pat rest

/-- The deny-list of `_is_sql_safe` (`api.py`). -/
def bannedKeywords : List Str :=
  ["insert".data, "update".data, "delete".data, "drop".data, "alter".data,
   "truncate".data, "create".data, "grant".data, "revoke".data]

/-- `_is_sql_safe` (`api.py` lines 152-159): strip and lowercase, then
require a `select` start, no semicolon, and none of the banned keywords
as a substring. -/
def is_sql_safe (sql : Str) : Bool :=
  let s := pyLower (pyStrip sql)
  if !("select".data.isPrefixOf s) then false
  else if containsSub [';'] s then false
  else !(bannedKeywords.any fun tok => containsSub tok s)

/-! ## The row-limit enforcement step of the `qa` endpoint

`api.py` lines 194-202: search for `\blimit\s+(\d+)\b` (ignoring case);
if found, substitute every non-overlapping match by `LIMIT min(n, cap)`;
otherwise right-strip the statement and append ` LIMIT cap`. -/

/-- Numeric value of a decimal digit character. -/
def digitVal (c : Char) : Nat := c.toNat - 48

/-- Python `int(...)` on a run of decimal digit characters. -/
def digitsToNat (ds : Str) : Nat := ds.foldl (fun a c => 10 * a + digitVal c) 0

/-- The decimal digit character of `d < 10`. -/
def digitChar (d : Nat) : Char :=
  match d with
  | 0 => '0' | 1 => '1' | 2 => '2' | 3 => '3' | 4 => '4'
  | 5 => '5' | 6 => '6' | 7 => '7' | 8 => '8' | _ => '9'

/-- Fuel-indexed decimal rendering (most significant digit first). -/
def natDigitsAux : Nat → Nat → Str
  | 0, _ => []
  | f + 1, n => if n < 10 then [digitChar n] else natDigitsAux f (n / 10) ++ [digitChar (n % 10)]

/-- Decimal rendering of a natural number, as Python formats a
non-negative `int`. -/
def natDigits (n : Nat) : Str := natDigitsAux (n + 1) n

/-- Case-insensitive tests for the letters of `limit` (regex `IGNORECASE`). -/
def isL (c : Char) : Bool := c = 'l' || c = 'L'

def isI (c : Char) : Bool := c = 'i' || c = 'I'

def isM (c : Char) : Bool := c = 'm' || c = 'M'

def isT (c : Char) : Bool := c = 't' || c = 'T'

/-- Head-position match of `limit\s+(\d+)\b` (case-insensitive): the five
letters, a non-empty whitespace run, a non-empty digit run, and a word
boundary after the digits.  Returns the captured number and the remainder
after the match. -/
def matchCore (l : Str) : Option (Nat × Str) :=
  match l with
  | c1 :: c2 :: c3 :: c4 :: c5 :: rest =>
    if isL c1 && isI c2 && isM c3 && isI c4 && isT c5 then
      let ws := rest.takeWhile pyIsSpace
      let r2 := rest.dropWhile pyIsSpace
      let ds := r2.takeWhile Char.isDigit
      if ws.isEmpty || ds.isEmpty then none
      else
        match r2.dropWhile Char.isDigit with
        | [] => some (digitsToNat ds, [])
        | c :: r4 => if isWordChar c then none else some (digitsToNat ds, c :: r4)
    else none
  | _ => none

/-- Match of `\blimit\s+(\d+)\b` at the current scan position; `pw` says
whether the preceding character (if any) is a word character, which
decides the leading `\b`. -/
def tryMatch (pw : Bool) (l : Str) : Option (Nat × Str) :=
  if pw then none else matchCore l

/-- The replacement/append text `LIMIT <k>`. -/
def mkLimit (k : Nat) : Str := 'L' :: 'I' :: 'M' :: 'I' :: 'T' :: ' ' :: natDigits k

/-- `re.sub(r"\blimit\s+(\d+)\b", lambda m: f"LIMIT {min(int(m.group(1)), cap)}", sql)`:
scan left to right, replace every non-overlapping match, resuming after each
match end (the `\b` state after a match is that of its last digit).  `fuel`
only needs to dominate the length of the scanned list. -/
def subAux (cap : Nat) : Nat → Bool → Str → Str
  | 0, _, l => l
  | _ + 1, _, [] => []
  | f + 1, pw, c :: rest =>
    match tryMatch pw (c :: rest) with
    | some (n, r) => mkLimit (min n cap) ++ subAux cap f true r
    | none => c :: subAux cap f (isWordChar c) rest

/-- `re.search(r"\blimit\s+(\d+)\b", sql) is not None`: a match starts at
some scan position. -/
def hasLimitAux (pw : Bool) : Str → Bool
  | [] => false
  | c :: rest => (tryMatch pw (c :: rest)).isSome || hasLimitAux (isWordChar c) rest

/-- The row-limit enforcement step of `qa` (`api.py` lines 194-202). -/
def enforce_limit (cap : Nat) (sql : Str) : Str :=
  if hasLimitAux false sql then subAux cap sql.length false sql
  else pyRstrip sql ++ ' ' :: mkLimit cap

/-- The `\b` state after scanning past `pre`, starting from state `pw`. -/
def endClass (pw : Bool) (pre : Str) : Bool := pre.foldl (fun _ c => isWordChar c) pw

/-- No match of the regex starts at any position inside `pre` when `pre`
is followed by `tail` (the `\b` state is carried along the scan). -/
def cleanScan (pw : Bool) : Str → Str → Bool
  | [], _ => true
  | c :: p, tail => (tryMatch pw (c :: (p ++ tail))).isNone && cleanScan (isWordChar c) p tail


/-! ## SQL extraction from a model response

`api.py` lines 97-106: first regex ```` ```sql\s*(.*?)``` ```` (ignoring
case, dot matches newline), then ```` ```\s*(.*?)``` ````, else the
stripped text.  `re.search` takes the leftmost opener from which a
closing fence is reachable; `\s*` is greedy (whitespace never holds a
backtick) and the lazy capture ends at the first closing fence. -/

/-- The fence string. -/
def ticks : Str := "```".data

/-- Does the text start with a closing/opening fence? -/
def isTicksAt (l : Str) : Bool := ticks.isPrefixOf l

/-- Does the text start with a fence tagged `sql` (case-insensitive)? -/
def isTagAt (l : Str) : Bool := (l.take 6).map Char.toLower == "```sql".data

/-- Split at the first closing fence: `some (b, a)` when `l = b ++ ticks
++ a` and no fence starts inside `b`. -/
def splitTicks : Str → Option (Str × Str)
  | [] => none
  | c :: rest =>
    if isTicksAt (c :: rest) then some ([], (c :: rest).drop 3)
    else
      match splitTicks rest with
      | some (b, a) => some (c :: b, a)
      | none => none

/-- Scan for a fenced block: at each position, if an opener starts here
and a closing fence follows the opener and the greedy whitespace run,
capture up to that fence; otherwise move one position right. -/
def searchFence (opAt : Str → Bool) (opLen : Nat) : Str → Option Str
  | [] => none
  | c :: rest =>
    if opAt (c :: rest) then
      match splitTicks (((c :: rest).drop opLen).dropWhile pyIsSpace) with
      | some (b, _) => some b
      | none => searchFence opAt opLen rest
    else searchFence opAt opLen rest

/-- `_extract_sql_from_text` (`api.py` lines 97-106). -/
def extract_sql_from_text (t : Str) : Str :=
  match searchFence isTagAt 6 t with
  | some b => pyStrip b
  | none =>
    match searchFence isTicksAt 3 t with
    | some b => pyStrip b
    | none => pyStrip t

/-- A fenced block with opener recognized by `opAt` and a closing fence
at or after the opener's end occurs somewhere in `t`. -/
def HasBlock (opAt : Str → Bool) (opLen : Nat) (t : Str) : Prop :=
  ∃ i, i ≤ t.length ∧ opAt (t.drop i) = true ∧
    ∃ j, j ≤ t.length ∧ i + opLen ≤ j ∧ isTicksAt (t.drop j) = true


/-- Executable check for `HasBlock`. -/
def hasBlockB (opAt : Str → Bool) (k : Nat) (t : Str) : Bool :=
  (List.range (t.length + 1)).any fun i =>
    opAt (t.drop i) && (List.range (t.length + 1)).any fun j =>
      decide (i + k <= j) && isTicksAt (t.drop j)

/-- `HasBlock` is decidable through its executable check. -/
instance (opAt : Str → Bool) (k : Nat) (t : Str) : Decidable (HasBlock opAt k t) :=
  decidable_of_iff (hasBlockB opAt k t = true) (by
    unfold hasBlockB HasBlock
    simp only [List.any_eq_true, List.mem_range, Bool.and_eq_true, decide_eq_true_eq]
    constructor
    · rintro ⟨i, hi, hop, j, hj, hij, ht⟩
      exact ⟨i, by omega, hop, j, by omega, hij, ht⟩
    · rintro ⟨i, hi, hop, j, hj, hij, ht⟩
      exact ⟨i, by omega, hop, j, by omega, hij, ht⟩)

/-! ## The PubMed client (`pubmed_client.py`)

The HTTP layer is abstracted: each function takes the parsed service
response as an explicit parameter and additionally returns the trace of
outbound effects (requests and rate-limit sleeps), so that the
short-circuit on an empty identifier list is observable. -/

/-- A normalized PubMed article record (`PubMedRecord`). -/
structure PubMedRecord where
  pmid : Str
  title : Option Str
  authors : List Str
  journal : Option Str
  pubdate : Option Str
  doi : Option Str
  abstract : Option Str
deriving DecidableEq

/-- One `esummary` item as the code reads it from the response JSON; a
missing key is `none` (`dict.get` semantics). -/
structure SummaryItem where
  title : Option Str
  authors : List (Option Str)
  fulljournalname : Option Str
  source : Option Str
  pubdate : Option Str
  articleids : List (Option Str × Option Str)
deriving DecidableEq

/-- The default item of `uidmap.get(uid, {})`. -/
def emptyItem : SummaryItem := ⟨none, [], none, none, none, []⟩

/-- The parsed `esummary` response: `result.uids` and the per-uid items. -/
structure SummaryResp where
  uids : List Str
  items : List (Str × SummaryItem)
deriving DecidableEq

/-- JSON-object lookup `uidmap.get(uid, {})` (object keys are unique, so
first binding wins). -/
def lookupItem (resp : SummaryResp) (uid : Str) : SummaryItem :=
  match resp.items.find? (fun p => p.1 == uid) with
  | some p => p.2
  | none => emptyItem

/-- Python truthiness of an optional string (`None` and `""` are falsy). -/
def pyTruthy : Option Str → Bool
  | none => false
  | some s => !s.isEmpty

/-- Python `a or b` on optional strings. -/
def pyOr (a b : Option Str) : Option Str := if pyTruthy a then a else b

/-- First article id with `idtype == "doi"`, taking its `value` (which
may itself be missing). -/
def findDoi : List (Option Str × Option Str) → Option Str
  | [] => none
  | (idtype, value) :: rest => if idtype == some "doi".data then value else findDoi rest

/-- One record built from a response uid (`esummary`, lines 157-188). -/
def buildRec (resp : SummaryResp) (uid : Str) : PubMedRecord :=
  let item := lookupItem resp uid
  { pmid := uid
    title := item.title
    authors := (item.authors.filter pyTruthy).map (fun a => a.getD [])
    journal := pyOr item.fulljournalname item.source
    pubdate := item.pubdate
    doi := findDoi item.articleids
    abstract := none }

/-- An outbound effect: an HTTP request to an E-utilities endpoint, or
the post-call rate-limit sleep. -/
inductive ClientEffect
  | httpGet (endpoint : Str)
  | sleep
deriving DecidableEq

/-- `esummary` (lines 131-190): empty input returns immediately with no
request and no sleep; otherwise one request, the sleep, and one record
per response uid. -/
def esummary (pmids : List Str) (resp : SummaryResp) :
    List PubMedRecord × List ClientEffect :=
  if pmids.isEmpty then ([], [])
  else (resp.uids.map (buildRec resp), [.httpGet "esummary.fcgi".data, .sleep])

/-- `efetch_pmids` (lines 101-128): empty input returns immediately;
otherwise the efetch request and sleep, then delegation to `esummary`. -/
def efetch_pmids (pmids : List Str) (resp : SummaryResp) :
    List PubMedRecord × List ClientEffect :=
  if pmids.isEmpty then ([], [])
  else
    ((esummary pmids resp).1,
      .httpGet "efetch.fcgi".data :: .sleep :: (esummary pmids resp).2)

/-- One `<AbstractText>` element: its optional `Label` attribute and its
flattened (`itertext`) text. -/
structure AbsFrag where
  label : Option Str
  text : Str
deriving DecidableEq

/-- One parsed `<PubmedArticle>`: optional PMID text and abstract
fragments in document order. -/
structure FtDoc where
  pmid : Option Str
  frags : List AbsFrag
deriving DecidableEq

/-- One abstract line (lines 239-245): `"<label>: <text>"` for a truthy
label, the stripped text alone otherwise. -/
def fragLine (f : AbsFrag) : Str :=
  match f.label with
  | some lab => if lab.isEmpty then pyStrip f.text else lab ++ ':' :: ' ' :: pyStrip f.text
  | none => pyStrip f.text

/-- The joined abstract (line 246): newline-separated fragment lines,
`none` when the document has no abstract fragments. -/
def abstractOf (d : FtDoc) : Option Str :=
  if d.frags.isEmpty then none
  else some (List.intercalate ['\n'] (d.frags.map fragLine))

/-- The `{r.pmid: r}` dictionary over the esummary records (line 210):
later records win. -/
def lookupLast (rs : List PubMedRecord) (p : Str) : Option PubMedRecord :=
  rs.foldl (fun acc r => if r.pmid == p then some r else acc) none

/-- The per-document loop of `fetch_with_abstracts` (lines 230-273): a
document without a truthy PMID is skipped; a matched document carries
the summary fields plus the parsed abstract; an unmatched one carries
only its identifier and abstract. -/
def mergeDocs (look : Str → Option PubMedRecord) : List FtDoc → List PubMedRecord
  | [] => []
  | d :: ds =>
    match d.pmid with
    | none => mergeDocs look ds
    | some p =>
      if p.isEmpty then mergeDocs look ds
      else
        (match look p with
         | some m =>
           { pmid := p, title := m.title, authors := m.authors, journal := m.journal,
             pubdate := m.pubdate, doi := m.doi, abstract := abstractOf d }
         | none =>
           { pmid := p, title := none, authors := [], journal := none,
             pubdate := none, doi := none, abstract := abstractOf d }) :: mergeDocs look ds

/-- `fetch_with_abstracts` (lines 193-275): empty input returns
immediately with no request and no sleep; otherwise the esummary call
(request and sleep), the efetch XML call (request and sleep), then the
per-document merge. -/
def fetch_with_abstracts (pmids : List Str) (sresp : SummaryResp) (docs : List FtDoc) :
    List PubMedRecord × List ClientEffect :=
  if pmids.isEmpty then ([], [])
  else
    (mergeDocs (lookupLast (esummary pmids sresp).1) docs,
      (esummary pmids sresp).2 ++ [.httpGet "efetch.fcgi".data, .sleep])

/-! ## The persistence gateway (`db.py`) -/

/-- A row of the `articles` table (descriptive fields; the
auto-increment key and the server-side timestamps are not modelled). -/
structure ArticleRow where
  pmid : Str
  title : Option Str
  authors : List Str
  journal : Option Str
  pubdate : Option Str
  doi : Option Str
  abstract : Option Str
deriving DecidableEq

/-- The row built from a record on insert (lines 106-115). -/
def rowOf (r : PubMedRecord) : ArticleRow :=
  ⟨r.pmid, r.title, r.authors, r.journal, r.pubdate, r.doi, r.abstract⟩

/-- Overwrite every descriptive field of a row from a record (lines
117-122). -/
def overwriteRow (row : ArticleRow) (r : PubMedRecord) : ArticleRow :=
  ⟨row.pmid, r.title, r.authors, r.journal, r.pubdate, r.doi, r.abstract⟩

/-- Upsert one record (lines 102-123): update the matching row in place,
or append a new row.  Under the table's unique constraint at most one
row matches (`one_or_none` would raise otherwise). -/
def upsertOne (db : List ArticleRow) (r : PubMedRecord) : List ArticleRow :=
  match db.find? (fun row => row.pmid == r.pmid) with
  | some _ => db.map (fun row => if row.pmid == r.pmid then overwriteRow row r else row)
  | none => db ++ [rowOf r]

/-- `upsert_articles` (lines 91-124): upsert each record in order,
counting the records processed. -/
def upsert_articles (db : List ArticleRow) (records : List PubMedRecord) :
    List ArticleRow × Nat :=
  records.foldl (fun st rec => (upsertOne st.1 rec, st.2 + 1)) (db, 0)

/-- `save_records` (lines 127-144): create the table if needed (a no-op
on the model state) and commit one call's upserts together. -/
def save_records (db : List ArticleRow) (records : List PubMedRecord) :
    List ArticleRow × Nat :=
  upsert_articles db records

/-- Row lookup by identifier. -/
def findRow (db : List ArticleRow) (p : Str) : Option ArticleRow :=
  db.find? (fun row => row.pmid == p)


/-! ## Substring test versus `List.IsInfix` -/

theorem containsSub_iff_infix (pat l : Str) : containsSub pat l = true ↔ pat <:+: l := by
  induction l with
  | nil =>
    simp only [containsSub, List.isPrefixOf_iff_prefix, List.infix_nil,
      List.prefix_nil]
  | cons c rest ih =>
    simp only [containsSub, Bool.or_eq_true, List.isPrefixOf_iff_prefix, ih]
    exact (List.infix_cons_iff).symm

theorem containsSub_eq_false_iff (pat l : Str) :
    containsSub pat l = false ↔ ¬ pat <:+: l := by
  rw [← containsSub_iff_infix, Bool.eq_false_iff]

theorem mem_iff_singleton_infix (c : Char) (l : Str) : c ∈ l ↔ [c] <:+: l := by
  constructor
  · intro h
    obtain ⟨s, t, rfl⟩ := List.append_of_mem h
    exact ⟨s, t, by simp⟩
  · rintro ⟨s, t, rfl⟩
    simp

/-- **C1.** The safety filter accepts a statement iff, after trimming and
lowercasing, it starts with `select`, contains no semicolon, and contains
none of the banned mutating keywords as a substring (so acceptance and
rejection are insensitive to the keyword casing of the input, which is
lowercased before every check). -/
theorem is_sql_safe_spec (sql : Str) :
    is_sql_safe sql = true ↔
      ("select".data <+: pyLower (pyStrip sql) ∧
       ';' ∉ pyLower (pyStrip sql) ∧
       ∀ tok ∈ bannedKeywords, ¬ tok <:+: pyLower (pyStrip sql)) := by
  have hb : is_sql_safe sql =
      ("select".data.isPrefixOf (pyLower (pyStrip sql)) &&
       !containsSub [';'] (pyLower (pyStrip sql)) &&
       !(bannedKeywords.any fun tok => containsSub tok (pyLower (pyStrip sql)))) := by
    unfold is_sql_safe
    cases hp : "select".data.isPrefixOf (pyLower (pyStrip sql)) <;>
      cases hq : containsSub [';'] (pyLower (pyStrip sql)) <;> simp [hp, hq]
  rw [hb]
  simp only [Bool.and_eq_true, Bool.not_eq_true', List.isPrefixOf_iff_prefix,
    List.any_eq_false, containsSub_eq_false_iff, containsSub_iff_infix, and_assoc,
    mem_iff_singleton_infix]

/-! ### Scanning helper lemmas -/

theorem takeWhile_append_stop {α : Type} (p : α → Bool) (A X : List α)
    (hX : ∀ x, X.head? = some x → p x = false) :
    (A ++ X).takeWhile p = A.takeWhile p := by
  induction A with
  | nil =>
    cases X with
    | nil => rfl
    | cons x xs => simp [List.takeWhile_cons, hX x rfl]
  | cons a A ih =>
    simp only [List.cons_append, List.takeWhile_cons]
    split <;> simp [ih]

theorem dropWhile_append_stop {α : Type} (p : α → Bool) (A X : List α)
    (hX : ∀ x, X.head? = some x → p x = false) :
    (A ++ X).dropWhile p = A.dropWhile p ++ X := by
  induction A with
  | nil =>
    cases X with
    | nil => rfl
    | cons x xs => simp [List.dropWhile_cons, hX x rfl]
  | cons a A ih =>
    simp only [List.cons_append, List.dropWhile_cons]
    split <;> simp [ih]

/-! ### Decimal rendering lemmas -/

theorem digitChar_spec (d : Nat) (h : d < 10) :
    (digitChar d).isDigit = true ∧ digitVal (digitChar d) = d := by
  interval_cases d <;> exact ⟨by decide, by decide⟩

theorem digitsToNat_append (ds : Str) (c : Char) :
    digitsToNat (ds ++ [c]) = 10 * digitsToNat ds + digitVal c := by
  simp [digitsToNat, List.foldl_append]

theorem natDigitsAux_spec (f : Nat) : ∀ n, n < f →
    natDigitsAux f n ≠ [] ∧ (∀ c ∈ natDigitsAux f n, c.isDigit = true) ∧
      digitsToNat (natDigitsAux f n) = n := by
  induction f with
  | zero => intro n h; exact absurd h (Nat.not_lt_zero n)
  | succ f ih =>
    intro n hn
    unfold natDigitsAux
    by_cases h10 : n < 10
    · simp only [if_pos h10]
      obtain ⟨hd, hv⟩ := digitChar_spec n h10
      refine ⟨by simp, ?_, ?_⟩
      · intro c hc
        simp only [List.mem_singleton] at hc
        subst hc
        exact hd
      · simp [digitsToNat, hv]
    · simp only [if_neg h10]
      have hdiv : n / 10 < f := by
        have h1 : n / 10 < n := Nat.div_lt_self (by omega) (by omega)
        omega
      obtain ⟨h1, h2, h3⟩ := ih (n / 10) hdiv
      obtain ⟨hd, hv⟩ := digitChar_spec (n % 10) (Nat.mod_lt n (by omega))
      refine ⟨by simp, ?_, ?_⟩
      · intro c hc
        rcases List.mem_append.mp hc with hc | hc
        · exact h2 c hc
        · simp only [List.mem_singleton] at hc
          subst hc
          exact hd
      · rw [digitsToNat_append, h3, hv]
        omega

theorem natDigits_ne_nil (n : Nat) : natDigits n ≠ [] :=
  (natDigitsAux_spec (n + 1) n (Nat.lt_succ_self n)).1

theorem natDigits_all_digit (n : Nat) : ∀ c ∈ natDigits n, c.isDigit = true :=
  (natDigitsAux_spec (n + 1) n (Nat.lt_succ_self n)).2.1

theorem digitsToNat_natDigits (n : Nat) : digitsToNat (natDigits n) = n :=
  (natDigitsAux_spec (n + 1) n (Nat.lt_succ_self n)).2.2

/-! ### Character-class facts -/

theorem isL_cases {c : Char} (h : isL c = true) : c = 'l' ∨ c = 'L' := by
  simpa [isL] using h

theorem isL_not_space {c : Char} (h : isL c = true) : pyIsSpace c = false := by
  rcases isL_cases h with rfl | rfl <;> decide

theorem isL_not_digit {c : Char} (h : isL c = true) : c.isDigit = false := by
  rcases isL_cases h with rfl | rfl <;> decide

theorem isL_word {c : Char} (h : isL c = true) : isWordChar c = true := by
  rcases isL_cases h with rfl | rfl <;> decide

theorem isL_not_isI {c : Char} (h : isL c = true) : isI c = false := by
  rcases isL_cases h with rfl | rfl <;> decide

theorem isL_not_isM {c : Char} (h : isL c = true) : isM c = false := by
  rcases isL_cases h with rfl | rfl <;> decide

theorem isL_not_isT {c : Char} (h : isL c = true) : isT c = false := by
  rcases isL_cases h with rfl | rfl <;> decide

theorem pyIsSpace_cases {c : Char} (h : pyIsSpace c = true) :
    c = ' ' ∨ c = '\t' ∨ c = '\n' ∨ c = '\r' ∨ c = Char.ofNat 11 ∨ c = Char.ofNat 12 := by
  have := h
  simp only [pyIsSpace, Bool.or_eq_true, decide_eq_true_eq] at this
  tauto

theorem pyIsSpace_not_word {c : Char} (h : pyIsSpace c = true) : isWordChar c = false := by
  rcases pyIsSpace_cases h with rfl | rfl | rfl | rfl | rfl | rfl <;> decide

theorem digit_word {c : Char} (h : c.isDigit = true) : isWordChar c = true := by
  simp [isWordChar, h]

theorem digit_not_space {c : Char} (h : c.isDigit = true) : pyIsSpace c = false := by
  cases hp : pyIsSpace c
  · rfl
  · rcases pyIsSpace_cases hp with rfl | rfl | rfl | rfl | rfl | rfl <;>
      exact absurd h (by decide)

theorem digit_not_isL {c : Char} (h : c.isDigit = true) : isL c = false := by
  cases hl : isL c
  · rfl
  · rcases isL_cases hl with rfl | rfl <;> exact absurd h (by decide)

/-! ### Characterization of a head-position regex match -/

theorem isEmpty_false_of_ne {α : Type} {l : List α} (h : l ≠ []) : l.isEmpty = false := by
  cases l with
  | nil => exact absurd rfl h
  | cons a t => rfl

theorem matchCore_cons (c1 c2 c3 c4 c5 : Char) (rest : Str) :
    matchCore (c1 :: c2 :: c3 :: c4 :: c5 :: rest) =
      (if isL c1 && isI c2 && isM c3 && isI c4 && isT c5 then
        if (rest.takeWhile pyIsSpace).isEmpty
            || ((rest.dropWhile pyIsSpace).takeWhile Char.isDigit).isEmpty then none
        else
          match (rest.dropWhile pyIsSpace).dropWhile Char.isDigit with
          | [] => some (digitsToNat ((rest.dropWhile pyIsSpace).takeWhile Char.isDigit), [])
          | c :: r4 =>
            if isWordChar c then none
            else some (digitsToNat ((rest.dropWhile pyIsSpace).takeWhile Char.isDigit), c :: r4)
      else none) := rfl

theorem matchCore_short (l : Str) (h : l.length < 5) : matchCore l = none := by
  match l with
  | [] => rfl
  | [_] => rfl
  | [_, _] => rfl
  | [_, _, _] => rfl
  | [_, _, _, _] => rfl
  | _ :: _ :: _ :: _ :: _ :: _ => simp only [List.length_cons] at h; omega

theorem matchCore_head_notL {c : Char} (h : isL c = false) (t : Str) :
    matchCore (c :: t) = none := by
  match t with
  | [] => rfl
  | [_] => rfl
  | [_, _] => rfl
  | [_, _, _] => rfl
  | a :: b :: c' :: d :: rest => rw [matchCore_cons]; simp [h]

theorem tryMatch_true (l : Str) : tryMatch true l = none := rfl

theorem tryMatch_false (l : Str) : tryMatch false l = matchCore l := rfl

theorem matchCore_intro (c1 c2 c3 c4 c5 : Char) (ws ds r : Str)
    (h1 : isL c1 = true) (h2 : isI c2 = true) (h3 : isM c3 = true)
    (h4 : isI c4 = true) (h5 : isT c5 = true)
    (hws : ws ≠ []) (hwsp : ∀ c ∈ ws, pyIsSpace c = true)
    (hds : ds ≠ []) (hdsd : ∀ c ∈ ds, Char.isDigit c = true)
    (hr : ∀ x, r.head? = some x → isWordChar x = false) :
    matchCore (c1 :: c2 :: c3 :: c4 :: c5 :: (ws ++ ds ++ r)) =
      some (digitsToNat ds, r) := by
  have hdnotsp : ∀ x, (ds ++ r).head? = some x → pyIsSpace x = false := by
    intro x hx
    cases ds with
    | nil => exact absurd rfl hds
    | cons d ds' =>
      simp only [List.cons_append, List.head?_cons, Option.some_inj] at hx
      subst hx
      exact digit_not_space (hdsd d (by simp))
  have hrnd : ∀ x, r.head? = some x → Char.isDigit x = false := by
    intro x hx
    cases hd : Char.isDigit x
    · rfl
    · exact absurd (digit_word hd) (by simp [hr x hx])
  have e1 : (ws ++ (ds ++ r)).takeWhile pyIsSpace = ws := by
    rw [takeWhile_append_stop _ _ _ hdnotsp]
    exact List.takeWhile_eq_self_iff.mpr hwsp
  have e2 : (ws ++ (ds ++ r)).dropWhile pyIsSpace = ds ++ r := by
    rw [dropWhile_append_stop _ _ _ hdnotsp, List.dropWhile_eq_nil_iff.mpr hwsp,
      List.nil_append]
  have e3 : (ds ++ r).takeWhile Char.isDigit = ds := by
    rw [takeWhile_append_stop _ _ _ hrnd]
    exact List.takeWhile_eq_self_iff.mpr hdsd
  have e4 : (ds ++ r).dropWhile Char.isDigit = r := by
    rw [dropWhile_append_stop _ _ _ hrnd, List.dropWhile_eq_nil_iff.mpr hdsd,
      List.nil_append]
  rw [List.append_assoc, matchCore_cons, if_pos (by simp [h1, h2, h3, h4, h5]),
    e1, e2, e3, e4, isEmpty_false_of_ne hws, isEmpty_false_of_ne hds]
  cases r with
  | nil => rfl
  | cons x r4 =>
    have hx : isWordChar x = false := hr x rfl
    simp [hx]

theorem matchCore_elim {l : Str} {n : Nat} {r : Str} (h : matchCore l = some (n, r)) :
    ∃ c1 c2 c3 c4 c5 ws ds,
      l = c1 :: c2 :: c3 :: c4 :: c5 :: (ws ++ ds ++ r) ∧
      isL c1 = true ∧ isI c2 = true ∧ isM c3 = true ∧ isI c4 = true ∧ isT c5 = true ∧
      ws ≠ [] ∧ (∀ c ∈ ws, pyIsSpace c = true) ∧
      ds ≠ [] ∧ (∀ c ∈ ds, Char.isDigit c = true) ∧
      (∀ x, r.head? = some x → isWordChar x = false) ∧
      n = digitsToNat ds := by
  match l with
  | [] => exact absurd h (by simp [matchCore])
  | [_] => exact absurd h (by simp [matchCore])
  | [_, _] => exact absurd h (by simp [matchCore])
  | [_, _, _] => exact absurd h (by simp [matchCore])
  | [_, _, _, _] => exact absurd h (by simp [matchCore])
  | c1 :: c2 :: c3 :: c4 :: c5 :: rest =>
    rw [matchCore_cons] at h
    by_cases hc : isL c1 && isI c2 && isM c3 && isI c4 && isT c5
    · rw [if_pos hc] at h
      simp only [Bool.and_eq_true] at hc
      obtain ⟨⟨⟨⟨h1, h2⟩, h3⟩, h4⟩, h5⟩ := hc
      by_cases he : (rest.takeWhile pyIsSpace).isEmpty
          || ((rest.dropWhile pyIsSpace).takeWhile Char.isDigit).isEmpty
      · rw [if_pos he] at h
        exact absurd h (by simp)
      · rw [if_neg he] at h
        simp only [Bool.or_eq_true, not_or, Bool.not_eq_true, List.isEmpty_eq_false] at he
        obtain ⟨hws, hds⟩ := he
        have hsplit : rest = rest.takeWhile pyIsSpace ++
            ((rest.dropWhile pyIsSpace).takeWhile Char.isDigit ++
              (rest.dropWhile pyIsSpace).dropWhile Char.isDigit) := by
          nth_rewrite 1 [← List.takeWhile_append_dropWhile pyIsSpace rest]
          conv_lhs =>
            rw [← List.takeWhile_append_dropWhile Char.isDigit (rest.dropWhile pyIsSpace)]
        have hkey : n = digitsToNat ((rest.dropWhile pyIsSpace).takeWhile Char.isDigit) ∧
            r = (rest.dropWhile pyIsSpace).dropWhile Char.isDigit ∧
            (∀ x, r.head? = some x → isWordChar x = false) := by
          split at h
          · rename_i hm
            simp only [Option.some.injEq, Prod.mk.injEq] at h
            obtain ⟨hn, hr'⟩ := h
            refine ⟨hn.symm, hr'.symm.trans hm.symm, ?_⟩
            intro x hx
            rw [← hr'] at hx
            exact absurd hx (by simp)
          · rename_i y r4 hm
            by_cases hw : isWordChar y
            · rw [if_pos hw] at h
              exact absurd h (by simp)
            · rw [if_neg hw] at h
              simp only [Option.some.injEq, Prod.mk.injEq] at h
              obtain ⟨hn, hr'⟩ := h
              refine ⟨hn.symm, hr'.symm.trans hm.symm, ?_⟩
              intro x hx
              rw [← hr'] at hx
              simp only [List.head?_cons, Option.some_inj] at hx
              subst hx
              simpa using hw
        obtain ⟨hn, hr', hbound⟩ := hkey
        refine ⟨c1, c2, c3, c4, c5, rest.takeWhile pyIsSpace,
          (rest.dropWhile pyIsSpace).takeWhile Char.isDigit,
          ?_, h1, h2, h3, h4, h5, hws, ?_, hds, ?_, hbound, hn⟩
        · simp only [List.cons.injEq, true_and]
          conv_lhs => rw [hsplit]
          rw [← hr', List.append_assoc]
        · intro c hc; exact List.mem_takeWhile_imp hc
        · intro c hc; exact List.mem_takeWhile_imp hc
    · rw [if_neg hc] at h
      exact absurd h (by simp)

/-! ### Scanner structure lemmas -/

theorem tryMatch_some_pw {pw : Bool} {l : Str} {n : Nat} {r : Str}
    (h : tryMatch pw l = some (n, r)) : pw = false ∧ matchCore l = some (n, r) := by
  cases pw
  · exact ⟨rfl, h⟩
  · exact absurd h (by simp [tryMatch])

theorem tryMatch_length {pw : Bool} {l : Str} {n : Nat} {r : Str}
    (h : tryMatch pw l = some (n, r)) : r.length < l.length := by
  obtain ⟨-, hm⟩ := tryMatch_some_pw h
  obtain ⟨c1, c2, c3, c4, c5, ws, ds, hl, -, -, -, -, -, hws, -, hds, -⟩ := matchCore_elim hm
  rw [hl]
  simp only [List.length_cons, List.length_append]
  have h1 : 0 < ws.length := List.length_pos.mpr hws
  have h2 : 0 < ds.length := List.length_pos.mpr hds
  omega

theorem subAux_fuel (cap : Nat) :
    ∀ f₁ : Nat, ∀ f₂ pw : _, ∀ l : Str, l.length ≤ f₁ → l.length ≤ f₂ →
      subAux cap f₁ pw l = subAux cap f₂ pw l := by
  intro f₁
  induction f₁ with
  | zero =>
    intro f₂ pw l h1 h2
    have : l = [] := List.length_eq_zero.mp (Nat.le_zero.mp h1)
    subst this
    cases f₂ <;> rfl
  | succ f ih =>
    intro f₂ pw l h1 h2
    cases l with
    | nil => cases f₂ <;> rfl
    | cons c rest =>
      cases f₂ with
      | zero => simp at h2
      | succ g =>
        cases hm : tryMatch pw (c :: rest) with
        | some v =>
          obtain ⟨n, r⟩ := v
          have hlen : r.length < (c :: rest).length := tryMatch_length hm
          simp only [List.length_cons] at hlen h1 h2
          simp only [subAux, hm]
          rw [ih g true r (by omega) (by omega)]
        | none =>
          simp only [List.length_cons] at h1 h2
          simp only [subAux, hm]
          rw [ih g (isWordChar c) rest (by omega) (by omega)]

theorem endClass_nil (pw : Bool) : endClass pw [] = pw := rfl

theorem endClass_cons (pw : Bool) (c : Char) (p : Str) :
    endClass pw (c :: p) = endClass (isWordChar c) p := rfl

theorem endClass_append_singleton (pw : Bool) (A : Str) (c : Char) :
    endClass pw (A ++ [c]) = isWordChar c := by
  simp [endClass, List.foldl_append]

theorem hasLimitAux_append_of_right {pw : Bool} {A B : Str}
    (h : hasLimitAux (endClass pw A) B = true) : hasLimitAux pw (A ++ B) = true := by
  induction A generalizing pw with
  | nil => exact h
  | cons c A ih =>
    simp only [List.cons_append, hasLimitAux, Bool.or_eq_true]
    refine Or.inr (ih ?_)
    exact h

/-- Decomposition of one substitution pass: either the statement has no
match at all and is returned verbatim, or it splits into a clean prefix,
a first match, and a recursively processed remainder. -/
theorem subAux_split (cap : Nat) :
    ∀ f pw : _, ∀ l : Str, l.length ≤ f →
      (hasLimitAux pw l = false ∧ subAux cap f pw l = l) ∨
      (∃ pre suf n r, l = pre ++ suf ∧ cleanScan pw pre suf = true ∧
        tryMatch (endClass pw pre) suf = some (n, r) ∧
        subAux cap f pw l = pre ++ mkLimit (min n cap) ++ subAux cap r.length true r) := by
  intro f
  induction f with
  | zero =>
    intro pw l h
    have : l = [] := List.length_eq_zero.mp (Nat.le_zero.mp h)
    subst this
    exact Or.inl ⟨rfl, rfl⟩
  | succ f ih =>
    intro pw l h
    cases l with
    | nil => exact Or.inl ⟨rfl, rfl⟩
    | cons c rest =>
      simp only [List.length_cons] at h
      cases hm : tryMatch pw (c :: rest) with
      | some v =>
        obtain ⟨n, r⟩ := v
        refine Or.inr ⟨[], c :: rest, n, r, rfl, rfl, hm, ?_⟩
        have hlen : r.length < (c :: rest).length := tryMatch_length hm
        simp only [List.length_cons] at hlen
        simp only [subAux, hm, List.nil_append]
        rw [subAux_fuel cap f r.length true r (by omega) (le_refl _)]
      | none =>
        rcases ih (isWordChar c) rest (by omega) with ⟨hno, heq⟩ | ⟨pre, suf, n, r, hd, hcl, hma, heq⟩
        · refine Or.inl ⟨?_, ?_⟩
          · simp [hasLimitAux, hm, hno]
          · simp [subAux, hm, heq]
        · refine Or.inr ⟨c :: pre, suf, n, r, by rw [hd]; rfl, ?_, hma, ?_⟩
          · simp only [cleanScan, Bool.and_eq_true]
            refine ⟨?_, hcl⟩
            rw [← hd, hm]
            rfl
          · simp only [subAux, hm, heq, List.cons_append]

/-- A clean prefix is copied verbatim by the substitution pass. -/
theorem subAux_clean_copy (cap : Nat) :
    ∀ pre : Str, ∀ f pw : _, ∀ tail : Str, (pre ++ tail).length ≤ f →
      cleanScan pw pre tail = true →
      subAux cap f pw (pre ++ tail) =
        pre ++ subAux cap tail.length (endClass pw pre) tail := by
  intro pre
  induction pre with
  | nil =>
    intro f pw tail hf hc
    simp only [List.nil_append] at hf ⊢
    exact subAux_fuel cap f tail.length pw tail hf (le_refl _)
  | cons c p ih =>
    intro f pw tail hf hc
    simp only [cleanScan, Bool.and_eq_true, Option.isNone_iff_eq_none] at hc
    obtain ⟨hm, hcl⟩ := hc
    cases f with
    | zero => simp at hf
    | succ g =>
      simp only [List.cons_append, List.length_cons] at hf ⊢
      simp only [subAux, hm]
      rw [ih g (isWordChar c) tail (by omega) hcl]
      rfl

/-! ### Positional failure lemmas for the five-letter window -/

theorem matchCore_notI2 {c2 : Char} (h : isI c2 = false) (c1 : Char) (t : Str) :
    matchCore (c1 :: c2 :: t) = none := by
  match t with
  | [] => rfl
  | [_] => rfl
  | [_, _] => rfl
  | _ :: _ :: _ :: rest => rw [matchCore_cons]; simp [h]

theorem matchCore_notM3 {c3 : Char} (h : isM c3 = false) (c1 c2 : Char) (t : Str) :
    matchCore (c1 :: c2 :: c3 :: t) = none := by
  match t with
  | [] => rfl
  | [_] => rfl
  | _ :: _ :: rest => rw [matchCore_cons]; simp [h]

theorem matchCore_notI4 {c4 : Char} (h : isI c4 = false) (c1 c2 c3 : Char) (t : Str) :
    matchCore (c1 :: c2 :: c3 :: c4 :: t) = none := by
  match t with
  | [] => rfl
  | _ :: rest => rw [matchCore_cons]; simp [h]

theorem matchCore_notT5 {c5 : Char} (h : isT c5 = false) (c1 c2 c3 c4 : Char) (t : Str) :
    matchCore (c1 :: c2 :: c3 :: c4 :: c5 :: t) = none := by
  rw [matchCore_cons]; simp [h]

/-! ### Preservation of match failure

The key facts behind idempotence: a failed match at a position stays
failed when the text after a clean prefix is replaced by another text
whose head is an `l`-letter (`tryMatch_none_congr`), when a space plus a
letter-headed tail is appended (`tryMatch_none_extend`), and failure on a
statement with trailing whitespace gives failure without it
(`tryMatch_none_of_append_ws`). -/

theorem tryMatch_none_congr {x₁ x₂ : Char} (hx₁ : isL x₁ = true) (hx₂ : isL x₂ = true)
    (pw : Bool) (a : Char) (pre t₁ t₂ : Str)
    (h : tryMatch pw (a :: (pre ++ x₁ :: t₁)) = none) :
    tryMatch pw (a :: (pre ++ x₂ :: t₂)) = none := by
  cases pw with
  | true => rfl
  | false =>
    rw [tryMatch_false] at h ⊢
    match pre with
    | [] => exact matchCore_notI2 (isL_not_isI hx₂) a t₂
    | [p1] => exact matchCore_notM3 (isL_not_isM hx₂) a p1 t₂
    | [p1, p2] => exact matchCore_notI4 (isL_not_isI hx₂) a p1 p2 t₂
    | [p1, p2, p3] => exact matchCore_notT5 (isL_not_isT hx₂) a p1 p2 p3 t₂
    | p1 :: p2 :: p3 :: p4 :: B =>
      simp only [List.cons_append] at h ⊢
      rw [matchCore_cons] at h ⊢
      by_cases hc : isL a && isI p1 && isM p2 && isI p3 && isT p4
      · rw [if_pos hc] at h ⊢
        have st₁ : ∀ y, (x₁ :: t₁).head? = some y → pyIsSpace y = false := by
          intro y hy
          simp only [List.head?_cons, Option.some_inj] at hy
          subst hy
          exact isL_not_space hx₁
        have std₁ : ∀ y, (x₁ :: t₁).head? = some y → Char.isDigit y = false := by
          intro y hy
          simp only [List.head?_cons, Option.some_inj] at hy
          subst hy
          exact isL_not_digit hx₁
        have st₂ : ∀ y, (x₂ :: t₂).head? = some y → pyIsSpace y = false := by
          intro y hy
          simp only [List.head?_cons, Option.some_inj] at hy
          subst hy
          exact isL_not_space hx₂
        have std₂ : ∀ y, (x₂ :: t₂).head? = some y → Char.isDigit y = false := by
          intro y hy
          simp only [List.head?_cons, Option.some_inj] at hy
          subst hy
          exact isL_not_digit hx₂
        rw [takeWhile_append_stop _ _ _ st₁, dropWhile_append_stop _ _ _ st₁,
          takeWhile_append_stop _ _ _ std₁, dropWhile_append_stop _ _ _ std₁] at h
        rw [takeWhile_append_stop _ _ _ st₂, dropWhile_append_stop _ _ _ st₂,
          takeWhile_append_stop _ _ _ std₂, dropWhile_append_stop _ _ _ std₂]
        by_cases he : (B.takeWhile pyIsSpace).isEmpty
            || ((B.dropWhile pyIsSpace).takeWhile Char.isDigit).isEmpty
        · rw [if_pos he]
        · rw [if_neg he] at h ⊢
          cases hD : (B.dropWhile pyIsSpace).dropWhile Char.isDigit with
          | nil => simp [hD, isL_word hx₂]
          | cons d D' =>
            by_cases hw : isWordChar d
            · simp [hD, hw]
            · exfalso
              rw [hD] at h
              simp [hw] at h
      · rw [if_neg hc]

theorem tryMatch_none_extend {pw : Bool} {A W : Str}
    (hW : ∀ y, W.head? = some y → pyIsSpace y = false ∧ Char.isDigit y = false)
    (h : tryMatch pw A = none) :
    tryMatch pw (A ++ ' ' :: W) = none := by
  cases pw with
  | true => rfl
  | false =>
    rw [tryMatch_false] at h ⊢
    match A with
    | [] => exact matchCore_head_notL (by decide) W
    | [a1] => exact matchCore_notI2 (by decide) a1 W
    | [a1, a2] => exact matchCore_notM3 (by decide) a1 a2 W
    | [a1, a2, a3] => exact matchCore_notI4 (by decide) a1 a2 a3 W
    | [a1, a2, a3, a4] => exact matchCore_notT5 (by decide) a1 a2 a3 a4 W
    | a1 :: a2 :: a3 :: a4 :: a5 :: B =>
      simp only [List.cons_append] at h ⊢
      rw [matchCore_cons] at h ⊢
      by_cases hc : isL a1 && isI a2 && isM a3 && isI a4 && isT a5
      · rw [if_pos hc] at h ⊢
        by_cases hall : ∀ c ∈ B, pyIsSpace c = true
        · have e2 : W.dropWhile pyIsSpace = W := by
            cases W with
            | nil => rfl
            | cons w W' => simp [List.dropWhile_cons, (hW w rfl).1]
          have e1 : (B ++ ' ' :: W).dropWhile pyIsSpace = W := by
            rw [List.dropWhile_append_of_pos hall, List.dropWhile_cons,
              if_pos (by decide : pyIsSpace ' ' = true)]
            exact e2
          have e3 : W.takeWhile Char.isDigit = [] := by
            cases W with
            | nil => rfl
            | cons w W' => simp [List.takeWhile_cons, (hW w rfl).2]
          have e4 : ((B ++ ' ' :: W).dropWhile pyIsSpace).takeWhile Char.isDigit = [] := by
            rw [e1]
            exact e3
          rw [e4]
          simp
        · have hBne : B.dropWhile pyIsSpace ≠ [] := by
            intro hnil
            exact hall (List.dropWhile_eq_nil_iff.mp hnil)
          obtain ⟨q, Q, hq⟩ := List.exists_cons_of_ne_nil hBne
          have e1 : (B ++ ' ' :: W).takeWhile pyIsSpace = B.takeWhile pyIsSpace := by
            rw [List.takeWhile_append]
            have hne : ¬ (B.takeWhile pyIsSpace).length = B.length := by
              intro hlen
              exact hall (List.takeWhile_eq_self_iff.mp
                ((List.takeWhile_prefix _).eq_of_length hlen))
            rw [if_neg hne]
          have e2 : (B ++ ' ' :: W).dropWhile pyIsSpace = B.dropWhile pyIsSpace ++ ' ' :: W := by
            rw [List.dropWhile_append]
            rw [if_neg (by simp [hq])]
          have stw : ∀ y, (' ' :: W).head? = some y → Char.isDigit y = false := by
            intro y hy
            simp only [List.head?_cons, Option.some_inj] at hy
            subst hy
            decide
          rw [hq] at h
          rw [e1, e2, hq]
          rw [takeWhile_append_stop _ _ _ stw, dropWhile_append_stop _ _ _ stw]
          by_cases he : (B.takeWhile pyIsSpace).isEmpty
              || ((q :: Q).takeWhile Char.isDigit).isEmpty
          · rw [if_pos he]
          · rw [if_neg he] at h ⊢
            cases hD : (q :: Q).dropWhile Char.isDigit with
            | nil =>
              exfalso
              rw [hD] at h
              simp at h
            | cons e E =>
              by_cases hw : isWordChar e
              · simp [hD, hw]
              · exfalso
                rw [hD] at h
                simp [hw] at h
      · rw [if_neg hc]

theorem tryMatch_none_of_append_ws {pw : Bool} {B T : Str}
    (hT : ∀ c ∈ T, pyIsSpace c = true)
    (h : tryMatch pw (B ++ T) = none) : tryMatch pw B = none := by
  cases pw with
  | true => rfl
  | false =>
    rw [tryMatch_false] at h ⊢
    cases hm : matchCore B with
    | none => rfl
    | some v =>
      exfalso
      obtain ⟨n, r⟩ := v
      obtain ⟨c1, c2, c3, c4, c5, ws, ds, hl, h1, h2, h3, h4, h5, hws, hwsp, hds, hdsd, hr, hn⟩ :=
        matchCore_elim hm
      have hr' : ∀ x, (r ++ T).head? = some x → isWordChar x = false := by
        intro x hx
        cases r with
        | nil =>
          simp only [List.nil_append] at hx
          cases T with
          | nil => exact absurd hx (by simp)
          | cons t T' =>
            simp only [List.head?_cons, Option.some_inj] at hx
            subst hx
            exact pyIsSpace_not_word (hT t (by simp))
        | cons y r' =>
          simp only [List.cons_append, List.head?_cons, Option.some_inj] at hx
          subst hx
          exact hr y rfl
      have hshape : B ++ T = c1 :: c2 :: c3 :: c4 :: c5 :: (ws ++ ds ++ (r ++ T)) := by
        rw [hl]
        simp [List.append_assoc]
      rw [hshape, matchCore_intro c1 c2 c3 c4 c5 ws ds (r ++ T)
        h1 h2 h3 h4 h5 hws hwsp hds hdsd hr'] at h
      simp at h

/-! ### Assembly lemmas -/

theorem subAux_match_step (cap g : Nat) {pw : Bool} {c : Char} {t : Str} {n : Nat} {r : Str}
    (hm : tryMatch pw (c :: t) = some (n, r)) :
    subAux cap (g + 1) pw (c :: t) = mkLimit (min n cap) ++ subAux cap g true r := by
  simp only [subAux, hm]

theorem subAux_skip_step (cap g : Nat) {pw : Bool} {c : Char} {t : Str}
    (hm : tryMatch pw (c :: t) = none) :
    subAux cap (g + 1) pw (c :: t) = c :: subAux cap g (isWordChar c) t := by
  simp only [subAux, hm]

/-- A statement with no match anywhere is returned verbatim, whatever the
fuel. -/
theorem subAux_no_match (cap : Nat) :
    ∀ g pw : _, ∀ l : Str, hasLimitAux pw l = false → subAux cap g pw l = l := by
  intro g
  induction g with
  | zero => intro pw l h; rfl
  | succ g ih =>
    intro pw l h
    cases l with
    | nil => rfl
    | cons c rest =>
      have hm : tryMatch pw (c :: rest) = none := by
        cases ht : tryMatch pw (c :: rest) with
        | none => rfl
        | some v => simp [hasLimitAux, ht] at h
      have hno : hasLimitAux (isWordChar c) rest = false := by
        simpa [hasLimitAux, hm] using h
      rw [subAux_skip_step cap g hm, ih (isWordChar c) rest hno]

theorem hasLimitAux_of_split {pw : Bool} {pre suf : Str} {n : Nat} {r : Str}
    (hma : tryMatch (endClass pw pre) suf = some (n, r)) :
    hasLimitAux pw (pre ++ suf) = true := by
  apply hasLimitAux_append_of_right
  cases suf with
  | nil =>
    exfalso
    have : tryMatch (endClass pw pre) ([] : Str) = none := by
      cases endClass pw pre <;> rfl
    rw [this] at hma
    exact absurd hma (by simp)
  | cons s t =>
    simp [hasLimitAux, hma]

theorem cleanScan_congr {x₁ x₂ : Char} (hx₁ : isL x₁ = true) (hx₂ : isL x₂ = true) :
    ∀ pre : Str, ∀ pw : Bool, ∀ t₁ t₂ : Str,
      cleanScan pw pre (x₁ :: t₁) = true → cleanScan pw pre (x₂ :: t₂) = true := by
  intro pre
  induction pre with
  | nil => intro pw t₁ t₂ h; rfl
  | cons d p ih =>
    intro pw t₁ t₂ h
    simp only [cleanScan, Bool.and_eq_true, Option.isNone_iff_eq_none] at h ⊢
    obtain ⟨hm, hcl⟩ := h
    exact ⟨tryMatch_none_congr hx₁ hx₂ pw d p t₁ t₂ hm, ih (isWordChar d) t₁ t₂ hcl⟩

theorem subAux_true_head (cap f : Nat) (r : Str)
    (hb : ∀ x, r.head? = some x → isWordChar x = false) :
    ∀ x, (subAux cap f true r).head? = some x → isWordChar x = false := by
  intro x hx
  cases f with
  | zero => exact hb x hx
  | succ g =>
    cases r with
    | nil => exact absurd hx (by simp [subAux])
    | cons c rest =>
      rw [subAux_skip_step cap g (tryMatch_true (c :: rest))] at hx
      simp only [List.head?_cons, Option.some_inj] at hx
      subst hx
      exact hb c rfl

theorem tryMatch_mkLimit (m : Nat) (r : Str)
    (hb : ∀ x, r.head? = some x → isWordChar x = false) :
    tryMatch false (mkLimit m ++ r) = some (m, r) := by
  have h := matchCore_intro 'L' 'I' 'M' 'I' 'T' [' '] (natDigits m) r
    (by decide) (by decide) (by decide) (by decide) (by decide)
    (by simp)
    (by
      intro c hc
      simp only [List.mem_singleton] at hc
      subst hc
      decide)
    (natDigits_ne_nil m) (natDigits_all_digit m) hb
  rw [tryMatch_false]
  calc matchCore (mkLimit m ++ r)
      = matchCore ('L' :: 'I' :: 'M' :: 'I' :: 'T' :: ([' '] ++ natDigits m ++ r)) := by
        simp [mkLimit]
    _ = some (digitsToNat (natDigits m), r) := h
    _ = some (m, r) := by rw [digitsToNat_natDigits]

theorem subAux_of_match (cap g : Nat) {pw : Bool} {l : Str} {n : Nat} {r : Str}
    (hm : tryMatch pw l = some (n, r)) (hg : l.length ≤ g) (hl : l ≠ []) :
    subAux cap g pw l = mkLimit (min n cap) ++ subAux cap (g - 1) true r := by
  cases l with
  | nil => exact absurd rfl hl
  | cons c t =>
    cases g with
    | zero => simp at hg
    | succ g' =>
      rw [subAux_match_step cap g' hm]
      rfl

/-- One substitution pass produces a fixed point of the pass. -/
theorem subAux_idem (cap : Nat) :
    ∀ f pw : _, ∀ l : Str, l.length ≤ f →
      ∀ g, (subAux cap f pw l).length ≤ g →
        subAux cap g pw (subAux cap f pw l) = subAux cap f pw l := by
  intro f
  induction f with
  | zero =>
    intro pw l hf g hg
    have hl : l = [] := List.length_eq_zero.mp (Nat.le_zero.mp hf)
    subst hl
    cases g <;> rfl
  | succ f ih =>
    intro pw l hf g hg
    cases l with
    | nil => cases g <;> rfl
    | cons c rest =>
      simp only [List.length_cons] at hf
      cases hm : tryMatch pw (c :: rest) with
      | some v =>
        obtain ⟨n, r⟩ := v
        obtain ⟨hpw, hmc⟩ := tryMatch_some_pw hm
        subst hpw
        have hlen := tryMatch_length hm
        simp only [List.length_cons] at hlen
        obtain ⟨c1, c2, c3, c4, c5, ws, ds, hl2, h1, h2, h3, h4, h5, hws, hwsp, hds,
          hdsd, hrb, hn⟩ := matchCore_elim hmc
        rw [subAux_match_step cap f hm] at hg ⊢
        have hb' := subAux_true_head cap f r hrb
        have hm2 : tryMatch false (mkLimit (min n cap) ++ subAux cap f true r)
            = some (min n cap, subAux cap f true r) :=
          tryMatch_mkLimit (min n cap) (subAux cap f true r) hb'
        rw [subAux_of_match cap g hm2 hg (by simp [mkLimit]),
          Nat.min_eq_left (Nat.min_le_right n cap)]
        congr 1
        apply ih true r (by omega) (g - 1)
        have hd1 : 1 ≤ (natDigits (min n cap)).length :=
          List.length_pos.mpr (natDigits_ne_nil _)
        simp only [mkLimit, List.length_append, List.length_cons] at hg
        omega
      | none =>
        rw [subAux_skip_step cap f hm] at hg ⊢
        simp only [List.length_cons] at hg
        rcases subAux_split cap f (isWordChar c) rest (by omega) with
          ⟨hno, heq⟩ | ⟨pre, suf, n, r, hd, hcl, hma, heq⟩
        · rw [heq]
          apply subAux_no_match
          simp [hasLimitAux, hm, hno]
        · obtain ⟨hstate, hmac⟩ := tryMatch_some_pw hma
          obtain ⟨c1, c2, c3, c4, c5, ws, ds, hsuf, h1, h2, h3, h4, h5, hws, hwsp, hds,
            hdsd, hrb, hn⟩ := matchCore_elim hmac
          have hrlen : r.length < suf.length := tryMatch_length hma
          have hsuflen : suf.length ≤ rest.length := by
            rw [hd]
            simp only [List.length_append]
            omega
          have hre : subAux cap r.length true r = subAux cap f true r :=
            subAux_fuel cap r.length f true r (le_refl _) (by omega)
          rw [heq, hre, List.append_assoc] at hg ⊢
          have hb₂ := subAux_true_head cap f r hrb
          have hm2 : tryMatch false (mkLimit (min n cap) ++ subAux cap f true r)
              = some (min n cap, subAux cap f true r) :=
            tryMatch_mkLimit (min n cap) (subAux cap f true r) hb₂
          have hm' : tryMatch pw
              (c :: (pre ++ (mkLimit (min n cap) ++ subAux cap f true r))) = none := by
            have hm0 : tryMatch pw
                (c :: (pre ++ (c1 :: (c2 :: c3 :: c4 :: c5 :: (ws ++ ds ++ r))))) = none := by
              rw [← hsuf, ← hd]
              exact hm
            exact tryMatch_none_congr h1 (by decide : isL 'L' = true) pw c pre
              (c2 :: c3 :: c4 :: c5 :: (ws ++ ds ++ r))
              ('I' :: 'M' :: 'I' :: 'T' :: ' ' ::
                (natDigits (min n cap) ++ subAux cap f true r)) hm0
          have hcl' : cleanScan (isWordChar c) pre
              (mkLimit (min n cap) ++ subAux cap f true r) = true := by
            rw [hsuf] at hcl
            exact cleanScan_congr h1 (by decide : isL 'L' = true) pre (isWordChar c)
              (c2 :: c3 :: c4 :: c5 :: (ws ++ ds ++ r))
              ('I' :: 'M' :: 'I' :: 'T' :: ' ' ::
                (natDigits (min n cap) ++ subAux cap f true r)) hcl
          cases g with
          | zero => omega
          | succ g' =>
            rw [subAux_skip_step cap g' hm']
            congr 1
            rw [subAux_clean_copy cap pre g' (isWordChar c)
              (mkLimit (min n cap) ++ subAux cap f true r) (by omega) hcl']
            congr 1
            rw [hstate]
            rw [subAux_of_match cap _ hm2 (le_refl _) (by simp [mkLimit]),
              Nat.min_eq_left (Nat.min_le_right n cap)]
            congr 1
            apply ih true r (by omega) _
            have hd1 : 1 ≤ (natDigits (min n cap)).length :=
              List.length_pos.mpr (natDigits_ne_nil _)
            simp only [mkLimit, List.length_append, List.length_cons]
            omega

theorem rstrip_spec (s : Str) :
    ∃ T, s = pyRstrip s ++ T ∧ ∀ c ∈ T, pyIsSpace c = true := by
  refine ⟨(s.reverse.takeWhile pyIsSpace).reverse, ?_, ?_⟩
  · unfold pyRstrip
    rw [← List.reverse_append, List.takeWhile_append_dropWhile, List.reverse_reverse]
  · intro c hc
    rw [List.mem_reverse] at hc
    exact List.mem_takeWhile_imp hc

theorem hasLimitAux_of_head_match {pw : Bool} {l : Str} {n : Nat} {r : Str}
    (hm : tryMatch pw l = some (n, r)) : hasLimitAux pw l = true := by
  cases l with
  | nil =>
    exfalso
    have : tryMatch pw ([] : Str) = none := by cases pw <;> rfl
    rw [this] at hm
    exact absurd hm (by simp)
  | cons c t => simp [hasLimitAux, hm]

theorem cleanScan_of_none {W : Str}
    (hW : ∀ y, W.head? = some y → pyIsSpace y = false ∧ Char.isDigit y = false) :
    ∀ R T : Str, ∀ pw : Bool, (∀ c ∈ T, pyIsSpace c = true) →
      hasLimitAux pw (R ++ T) = false → cleanScan pw R (' ' :: W) = true := by
  intro R
  induction R with
  | nil => intro T pw hT h; rfl
  | cons a R' ih =>
    intro T pw hT h
    simp only [List.cons_append] at h
    have hm : tryMatch pw (a :: (R' ++ T)) = none := by
      cases ht : tryMatch pw (a :: (R' ++ T)) with
      | none => rfl
      | some v => simp [hasLimitAux, ht] at h
    have hrec : hasLimitAux (isWordChar a) (R' ++ T) = false := by
      simpa [hasLimitAux, hm] using h
    have hm0 : tryMatch pw ((a :: R') ++ T) = none := hm
    have hm1 : tryMatch pw (a :: R') = none :=
      tryMatch_none_of_append_ws hT hm0
    have hm2 : tryMatch pw ((a :: R') ++ ' ' :: W) = none :=
      tryMatch_none_extend hW hm1
    simp only [cleanScan, Bool.and_eq_true, Option.isNone_iff_eq_none]
    exact ⟨hm2, ih T (isWordChar a) hT hrec⟩

/-- The row-limit enforcement step is idempotent. -/
theorem enforce_limit_idem (cap : Nat) (sql : Str) :
    enforce_limit cap (enforce_limit cap sql) = enforce_limit cap sql := by
  unfold enforce_limit
  by_cases h : hasLimitAux false sql = true
  · rw [if_pos h]
    rcases subAux_split cap sql.length false sql (le_refl _) with
      ⟨hno, _⟩ | ⟨pre, suf, n, r, hd, hcl, hma, heq⟩
    · rw [hno] at h
      exact absurd h (by simp)
    · obtain ⟨hstate, hmac⟩ := tryMatch_some_pw hma
      obtain ⟨c1, c2, c3, c4, c5, ws, ds, hsuf, h1, h2, h3, h4, h5, hws, hwsp, hds,
        hdsd, hrb, hn⟩ := matchCore_elim hmac
      have hb₂ := subAux_true_head cap r.length r hrb
      have hm2 : tryMatch false (mkLimit (min n cap) ++ subAux cap r.length true r)
          = some (min n cap, subAux cap r.length true r) :=
        tryMatch_mkLimit (min n cap) (subAux cap r.length true r) hb₂
      have hout : hasLimitAux false (subAux cap sql.length false sql) = true := by
        rw [heq, List.append_assoc]
        apply hasLimitAux_append_of_right
        rw [hstate]
        exact hasLimitAux_of_head_match hm2
      rw [if_pos hout]
      exact subAux_idem cap sql.length false sql (le_refl _) _ (le_refl _)
  · rw [if_neg h]
    have h' : hasLimitAux false sql = false := by
      cases hh : hasLimitAux false sql
      · rfl
      · exact absurd hh h
    obtain ⟨T, hT, hTs⟩ := rstrip_spec sql
    have hWhead : ∀ y, (mkLimit cap).head? = some y →
        pyIsSpace y = false ∧ Char.isDigit y = false := by
      intro y hy
      simp only [mkLimit, List.head?_cons, Option.some_inj] at hy
      subst hy
      exact ⟨by decide, by decide⟩
    have hmk : tryMatch false (mkLimit cap) = some (cap, []) := by
      have hb : ∀ x, ([] : Str).head? = some x → isWordChar x = false := by
        intro x hx
        exact absurd hx (by simp)
      have := tryMatch_mkLimit cap [] hb
      simpa using this
    have hout : hasLimitAux false (pyRstrip sql ++ ' ' :: mkLimit cap) = true := by
      have hrw : pyRstrip sql ++ ' ' :: mkLimit cap
          = (pyRstrip sql ++ [' ']) ++ mkLimit cap := by
        simp
      rw [hrw]
      apply hasLimitAux_append_of_right
      rw [endClass_append_singleton, show isWordChar ' ' = false from by decide]
      exact hasLimitAux_of_head_match hmk
    rw [if_pos hout]
    have hclean : cleanScan false (pyRstrip sql) (' ' :: mkLimit cap) = true := by
      apply cleanScan_of_none hWhead (pyRstrip sql) T false hTs
      rw [← hT]
      exact h'
    rw [subAux_clean_copy cap (pyRstrip sql) _ false (' ' :: mkLimit cap)
      (le_refl _) hclean]
    congr 1
    have hsp : tryMatch (endClass false (pyRstrip sql)) (' ' :: mkLimit cap) = none := by
      cases endClass false (pyRstrip sql)
      · rw [tryMatch_false]
        exact matchCore_head_notL (by decide) _
      · rfl
    simp only [List.length_cons]
    rw [subAux_skip_step cap _ hsp]
    congr 1
    rw [show isWordChar ' ' = false from by decide]
    rw [subAux_of_match cap _ hmk (le_refl _) (by simp [mkLimit]), Nat.min_self]
    have hnil : subAux cap ((mkLimit cap).length - 1) true [] = [] := by
      cases hE : (mkLimit cap).length - 1 <;> rfl
    rw [hnil, List.append_nil]

/-- General behaviour of the enforcement step on a statement containing a
limit clause: the clause is rewritten to `LIMIT min(n, cap)` and nothing
before it changes. -/
theorem enforce_limit_match (cap : Nat) (pre : Str) (c1 c2 c3 c4 c5 : Char)
    (ws ds post : Str)
    (h1 : isL c1 = true) (h2 : isI c2 = true) (h3 : isM c3 = true)
    (h4 : isI c4 = true) (h5 : isT c5 = true)
    (hws : ws ≠ []) (hwsp : ∀ c ∈ ws, pyIsSpace c = true)
    (hds : ds ≠ []) (hdsd : ∀ c ∈ ds, Char.isDigit c = true)
    (hpost : ∀ x, post.head? = some x → isWordChar x = false)
    (hclean : cleanScan false pre (c1 :: c2 :: c3 :: c4 :: c5 :: (ws ++ ds ++ post)) = true)
    (hstate : endClass false pre = false) :
    enforce_limit cap (pre ++ (c1 :: c2 :: c3 :: c4 :: c5 :: (ws ++ ds ++ post)))
      = pre ++ (mkLimit (min (digitsToNat ds) cap)
          ++ subAux cap post.length true post) := by
  have hmc : matchCore (c1 :: c2 :: c3 :: c4 :: c5 :: (ws ++ ds ++ post))
      = some (digitsToNat ds, post) :=
    matchCore_intro c1 c2 c3 c4 c5 ws ds post h1 h2 h3 h4 h5 hws hwsp hds hdsd hpost
  have hma : tryMatch (endClass false pre)
      (c1 :: c2 :: c3 :: c4 :: c5 :: (ws ++ ds ++ post)) = some (digitsToNat ds, post) := by
    rw [hstate, tryMatch_false]
    exact hmc
  have hhas : hasLimitAux false
      (pre ++ (c1 :: c2 :: c3 :: c4 :: c5 :: (ws ++ ds ++ post))) = true :=
    hasLimitAux_of_split hma
  unfold enforce_limit
  rw [if_pos hhas]
  rw [subAux_clean_copy cap pre _ false _ (le_refl _) hclean]
  congr 1
  rw [hstate]
  rw [subAux_of_match cap _ (by rw [tryMatch_false]; exact hmc) (le_refl _) (by simp)]
  congr 1
  apply subAux_fuel
  · have hw1 : 0 < ws.length := List.length_pos.mpr hws
    have hd1 : 0 < ds.length := List.length_pos.mpr hds
    simp only [List.length_cons, List.length_append]
    omega
  · exact le_refl _

/-- Behaviour of the enforcement step on a statement containing no limit
clause: right-strip and append. -/
theorem enforce_limit_append (cap : Nat) (sql : Str)
    (h : hasLimitAux false sql = false) :
    enforce_limit cap sql = pyRstrip sql ++ ' ' :: mkLimit cap := by
  unfold enforce_limit
  rw [if_neg (by simp [h])]

/-- **C2.** The row-limit enforcement step: a statement containing a limit
clause with numeric bound `n` has that bound rewritten to `min(n, cap)`
(the clause becomes `LIMIT min(n, cap)` and the text before it is kept);
a statement containing no limit clause is right-stripped and gets
` LIMIT cap` appended.  In particular `SELECT title FROM articles LIMIT
500` with cap 100 becomes `SELECT title FROM articles LIMIT 100`, and
`SELECT title FROM articles` with cap 50 becomes `SELECT title FROM
articles LIMIT 50`. -/
theorem qa_row_limit_spec :
    (∀ cap : Nat, ∀ pre : Str, ∀ c1 c2 c3 c4 c5 : Char, ∀ ws ds post : Str,
      isL c1 = true → isI c2 = true → isM c3 = true → isI c4 = true → isT c5 = true →
      ws ≠ [] → (∀ c ∈ ws, pyIsSpace c = true) →
      ds ≠ [] → (∀ c ∈ ds, Char.isDigit c = true) →
      (∀ x, post.head? = some x → isWordChar x = false) →
      cleanScan false pre (c1 :: c2 :: c3 :: c4 :: c5 :: (ws ++ ds ++ post)) = true →
      endClass false pre = false →
      enforce_limit cap (pre ++ (c1 :: c2 :: c3 :: c4 :: c5 :: (ws ++ ds ++ post)))
        = pre ++ (mkLimit (min (digitsToNat ds) cap)
            ++ subAux cap post.length true post)) ∧
    (∀ cap : Nat, ∀ sql : Str, hasLimitAux false sql = false →
      enforce_limit cap sql = pyRstrip sql ++ ' ' :: mkLimit cap) ∧
    enforce_limit 100 "SELECT title FROM articles LIMIT 500".data
      = "SELECT title FROM articles LIMIT 100".data ∧
    enforce_limit 50 "SELECT title FROM articles".data
      = "SELECT title FROM articles LIMIT 50".data := by
  refine ⟨?_, ?_, by decide, by decide⟩
  · intro cap pre c1 c2 c3 c4 c5 ws ds post h1 h2 h3 h4 h5 hws hwsp hds hdsd hpost hclean hstate
    exact enforce_limit_match cap pre c1 c2 c3 c4 c5 ws ds post
      h1 h2 h3 h4 h5 hws hwsp hds hdsd hpost hclean hstate
  · intro cap sql h
    exact enforce_limit_append cap sql h

/-- Witness for C2: the general clause-rewrite applied to the concrete
statement `select x limit 7` with cap 5, and the append case applied to
`select y ` with cap 8. -/
theorem qa_row_limit_spec_witness :
    (cleanScan false "select x ".data
      ('l' :: 'i' :: 'm' :: 'i' :: 't' :: ([' '] ++ ['7'] ++ [])) = true ∧
     endClass false "select x ".data = false ∧
     enforce_limit 5 ("select x ".data
         ++ ('l' :: 'i' :: 'm' :: 'i' :: 't' :: ([' '] ++ ['7'] ++ [])))
       = "select x ".data ++ (mkLimit (min (digitsToNat ['7']) 5)
           ++ subAux 5 (List.length ([] : Str)) true [])) ∧
    (hasLimitAux false "select y ".data = false ∧
     enforce_limit 8 "select y ".data
       = pyRstrip "select y ".data ++ ' ' :: mkLimit 8) := by
  constructor
  · refine ⟨by decide, by decide, ?_⟩
    exact qa_row_limit_spec.1 5 "select x ".data 'l' 'i' 'm' 'i' 't' [' '] ['7'] []
      (by decide) (by decide) (by decide) (by decide) (by decide)
      (by decide) (by decide) (by decide) (by decide)
      (fun x hx => absurd hx (by simp)) (by decide) (by decide)
  · refine ⟨by decide, ?_⟩
    exact qa_row_limit_spec.2.1 8 "select y ".data (by decide)

/-- **C3 counterexample.** The rewrite does not only change the numeric
bound: on `select x limit 5` with cap 3 it also uppercases the `limit`
keyword, so the output differs from the statement with only its bound
rewritten. -/
theorem qa_rewrite_alters_keyword_casing :
    enforce_limit 3 "select x limit 5".data = "select x LIMIT 3".data ∧
    "select x LIMIT 3".data ≠ "select x limit 3".data :=
  ⟨by decide, by decide⟩

/-- **C3 (amended).** The row-limit rewrite is idempotent for every
statement and cap; and every change it makes is confined to the matched
limit clause (or the appended one): when the statement has no limit
clause the output is exactly the statement with trailing whitespace
removed and ` LIMIT cap` appended, and when a limit clause follows a
clean prefix the prefix is kept verbatim while the matched clause itself
is rewritten to `LIMIT min(n, cap)` (its keyword casing and internal
whitespace normalized) and the remainder is processed recursively. -/
theorem qa_row_limit_idem_localized :
    (∀ cap : Nat, ∀ sql : Str,
      enforce_limit cap (enforce_limit cap sql) = enforce_limit cap sql) ∧
    (∀ cap : Nat, ∀ sql : Str, hasLimitAux false sql = false →
      enforce_limit cap sql = pyRstrip sql ++ ' ' :: mkLimit cap) ∧
    (∀ cap : Nat, ∀ pre : Str, ∀ c1 c2 c3 c4 c5 : Char, ∀ ws ds post : Str,
      isL c1 = true → isI c2 = true → isM c3 = true → isI c4 = true → isT c5 = true →
      ws ≠ [] → (∀ c ∈ ws, pyIsSpace c = true) →
      ds ≠ [] → (∀ c ∈ ds, Char.isDigit c = true) →
      (∀ x, post.head? = some x → isWordChar x = false) →
      cleanScan false pre (c1 :: c2 :: c3 :: c4 :: c5 :: (ws ++ ds ++ post)) = true →
      endClass false pre = false →
      enforce_limit cap (pre ++ (c1 :: c2 :: c3 :: c4 :: c5 :: (ws ++ ds ++ post)))
        = pre ++ (mkLimit (min (digitsToNat ds) cap)
            ++ subAux cap post.length true post)) := by
  refine ⟨enforce_limit_idem, fun cap sql h => enforce_limit_append cap sql h, ?_⟩
  intro cap pre c1 c2 c3 c4 c5 ws ds post h1 h2 h3 h4 h5 hws hwsp hds hdsd hpost hclean hstate
  exact enforce_limit_match cap pre c1 c2 c3 c4 c5 ws ds post
    h1 h2 h3 h4 h5 hws hwsp hds hdsd hpost hclean hstate

/-- Witness for the amended C3 at concrete inputs. -/
theorem qa_row_limit_idem_localized_witness :
    (enforce_limit 2 (enforce_limit 2 "select x limit 5".data)
      = enforce_limit 2 "select x limit 5".data) ∧
    (hasLimitAux false "select z".data = false ∧
     enforce_limit 4 "select z".data = pyRstrip "select z".data ++ ' ' :: mkLimit 4) ∧
    (cleanScan false "select w ".data
      ('L' :: 'i' :: 'M' :: 'i' :: 'T' :: ([' '] ++ ['9'] ++ [])) = true ∧
     enforce_limit 6 ("select w ".data
         ++ ('L' :: 'i' :: 'M' :: 'i' :: 'T' :: ([' '] ++ ['9'] ++ [])))
       = "select w ".data ++ (mkLimit (min (digitsToNat ['9']) 6)
           ++ subAux 6 (List.length ([] : Str)) true [])) := by
  refine ⟨qa_row_limit_idem_localized.1 2 "select x limit 5".data,
    ⟨by decide, qa_row_limit_idem_localized.2.1 4 "select z".data (by decide)⟩,
    ⟨by decide, ?_⟩⟩
  exact qa_row_limit_idem_localized.2.2 6 "select w ".data 'L' 'i' 'M' 'i' 'T' [' '] ['9'] []
    (by decide) (by decide) (by decide) (by decide) (by decide)
    (by decide) (by decide) (by decide) (by decide)
    (fun x hx => absurd hx (by simp)) (by decide) (by decide)

/-! ### Fence-search lemmas -/

theorem dropWhile_eq_drop {α : Type} (p : α → Bool) (l : List α) :
    l.dropWhile p = l.drop (l.takeWhile p).length := by
  induction l with
  | nil => rfl
  | cons c t ih =>
    rw [List.dropWhile_cons, List.takeWhile_cons]
    by_cases hp : p c
    · simp [hp, ih]
    · simp [hp]

theorem dropWhile_eq_self_of_head {α : Type} {p : α → Bool} {l : List α}
    (h : ∀ x, l.head? = some x → p x = false) : l.dropWhile p = l := by
  cases l with
  | nil => rfl
  | cons c t => simp [List.dropWhile_cons, h c rfl]

theorem splitTicks_some {L : Str} {b a : Str} (h : splitTicks L = some (b, a)) :
    L = b ++ ticks ++ a := by
  induction L generalizing b with
  | nil => exact absurd h (by simp [splitTicks])
  | cons c rest ih =>
    rw [splitTicks] at h
    by_cases ht : isTicksAt (c :: rest)
    · rw [if_pos ht] at h
      simp only [Option.some.injEq, Prod.mk.injEq] at h
      obtain ⟨hb, ha⟩ := h
      subst hb
      have hpre : ticks <+: (c :: rest) := List.isPrefixOf_iff_prefix.mp ht
      obtain ⟨s, hs⟩ := hpre
      rw [← hs, ← ha, ← hs]
      simp [ticks]
    · rw [if_neg ht] at h
      cases hs : splitTicks rest with
      | none => rw [hs] at h; exact absurd h (by simp)
      | some v =>
        obtain ⟨b', a'⟩ := v
        rw [hs] at h
        simp only [Option.some.injEq, Prod.mk.injEq] at h
        obtain ⟨hb, ha⟩ := h
        subst ha
        rw [← hb]
        simp [ih hs]

theorem splitTicks_none {L : Str} (h : splitTicks L = none) :
    ∀ m, isTicksAt (L.drop m) = false := by
  induction L with
  | nil =>
    intro m
    simp [List.drop_nil, isTicksAt, ticks]
  | cons c rest ih =>
    rw [splitTicks] at h
    by_cases ht : isTicksAt (c :: rest)
    · rw [if_pos ht] at h
      exact absurd h (by simp)
    · rw [if_neg ht] at h
      intro m
      cases m with
      | zero => simpa using ht
      | succ m' =>
        rw [List.drop_succ_cons]
        cases hs : splitTicks rest with
        | none => exact ih hs m'
        | some v => obtain ⟨b', a'⟩ := v; rw [hs] at h; exact absurd h (by simp)

theorem splitTicks_of_first {b a : Str}
    (hfirst : ∀ m, m < b.length → isTicksAt ((b ++ ticks ++ a).drop m) = false) :
    splitTicks (b ++ ticks ++ a) = some (b, a) := by
  induction b with
  | nil =>
    have ht : isTicksAt (ticks ++ a) = true := by
      simp only [isTicksAt, List.isPrefixOf_iff_prefix]
      exact List.prefix_append ticks a
    have hsh : ([] : Str) ++ ticks ++ a = ticks ++ a := by simp
    rw [hsh]
    cases hc : ticks ++ a with
    | nil => simp [ticks] at hc
    | cons c rest =>
      rw [splitTicks, ← hc, if_pos ht, hc]
      have hdrop : (ticks ++ a).drop 3 = a := by
        simp [ticks]
      rw [← hc, hdrop]
  | cons x b' ih =>
    have h0 : isTicksAt ((x :: b') ++ ticks ++ a) = false := by
      have := hfirst 0 (by simp)
      simpa using this
    have hsh : (x :: b') ++ ticks ++ a = x :: (b' ++ ticks ++ a) := by simp
    rw [hsh]
    rw [splitTicks]
    rw [if_neg (by simpa [List.append_assoc] using h0)]
    rw [ih (fun m hm => by
      have := hfirst (m + 1) (by simp; omega)
      rw [hsh] at this
      simpa [List.drop_succ_cons] using this)]

theorem hasBlock_cons {opAt : Str → Bool} {k : Nat} {c : Char} {rest : Str}
    (h : HasBlock opAt k rest) : HasBlock opAt k (c :: rest) := by
  obtain ⟨i, hi, hop, j, hj, hij, ht⟩ := h
  refine ⟨i + 1, by simp only [List.length_cons]; omega,
    by simpa [List.drop_succ_cons] using hop,
    j + 1, by simp only [List.length_cons]; omega, by omega,
    by simpa [List.drop_succ_cons] using ht⟩

theorem searchFence_some_hasBlock {opAt : Str → Bool} {k : Nat} :
    ∀ t b : Str, searchFence opAt k t = some b → HasBlock opAt k t := by
  intro t
  induction t with
  | nil =>
    intro b h
    exact absurd h (by simp [searchFence])
  | cons c rest ih =>
    intro b h
    rw [searchFence] at h
    by_cases hop : opAt (c :: rest)
    · rw [if_pos hop] at h
      cases hs : splitTicks (((c :: rest).drop k).dropWhile pyIsSpace) with
      | some v =>
        obtain ⟨b', a'⟩ := v
        have hL := splitTicks_some hs
        have hreg : ((c :: rest).drop k).dropWhile pyIsSpace
            = (c :: rest).drop (k + (((c :: rest).drop k).takeWhile pyIsSpace).length) := by
          rw [dropWhile_eq_drop, List.drop_drop]
        have hticks : isTicksAt ((c :: rest).drop
            (k + (((c :: rest).drop k).takeWhile pyIsSpace).length + b'.length)) = true := by
          rw [← List.drop_drop, ← hreg, hL]
          have hd : (b' ++ ticks ++ a').drop b'.length = ticks ++ a' := by
            rw [List.append_assoc, List.drop_left]
          rw [hd]
          simp only [isTicksAt, List.isPrefixOf_iff_prefix]
          exact List.prefix_append ticks a'
        have hjlen : k + (((c :: rest).drop k).takeWhile pyIsSpace).length + b'.length
            < (c :: rest).length := by
          by_contra hge
          push_neg at hge
          rw [List.drop_eq_nil_of_le hge] at hticks
          simp [isTicksAt, ticks] at hticks
        exact ⟨0, by simp, by simpa using hop,
          k + (((c :: rest).drop k).takeWhile pyIsSpace).length + b'.length,
          by omega, by omega, hticks⟩
      | none =>
        rw [hs] at h
        exact hasBlock_cons (ih b h)
    · rw [if_neg hop] at h
      exact hasBlock_cons (ih b h)

theorem searchFence_skip {opAt : Str → Bool} {k : Nat} :
    ∀ pre X : Str, (∀ i, i < pre.length → opAt ((pre ++ X).drop i) = false) →
      searchFence opAt k (pre ++ X) = searchFence opAt k X := by
  intro pre
  induction pre with
  | nil => intro X h; rfl
  | cons c p ih =>
    intro X h
    have h0 : opAt (c :: (p ++ X)) = false := by
      have := h 0 (by simp)
      simpa using this
    rw [List.cons_append, searchFence, if_neg (by simp [h0])]
    exact ih X (fun i hi => by
      have := h (i + 1) (by simp only [List.length_cons]; omega)
      simpa [List.drop_succ_cons] using this)

theorem searchFence_found {opAt : Str → Bool} {k : Nat} {O ws body post : Str}
    (hO : O.length = k) (hOne : O ≠ [])
    (hop : opAt (O ++ (ws ++ (body ++ (ticks ++ post)))) = true)
    (hws : ∀ c ∈ ws, pyIsSpace c = true)
    (hbody : ∀ x, body.head? = some x → pyIsSpace x = false)
    (hclose : ∀ m, m < body.length → isTicksAt ((body ++ ticks ++ post).drop m) = false) :
    searchFence opAt k (O ++ (ws ++ (body ++ (ticks ++ post)))) = some body := by
  cases O with
  | nil => exact absurd rfl hOne
  | cons o O' =>
    rw [List.cons_append, searchFence, if_pos (by simpa using hop)]
    have hdropk : (o :: (O' ++ (ws ++ (body ++ (ticks ++ post))))).drop k
        = ws ++ (body ++ (ticks ++ post)) := by
      have hsh : o :: (O' ++ (ws ++ (body ++ (ticks ++ post))))
          = (o :: O') ++ (ws ++ (body ++ (ticks ++ post))) := by simp
      rw [hsh, ← hO]
      exact List.drop_left _ _
    rw [hdropk]
    have hdw : (ws ++ (body ++ (ticks ++ post))).dropWhile pyIsSpace
        = body ++ (ticks ++ post) := by
      rw [List.dropWhile_append_of_pos hws]
      apply dropWhile_eq_self_of_head
      intro x hx
      cases body with
      | nil =>
        simp only [List.nil_append] at hx
        have htk : ticks = Char.ofNat 96 :: Char.ofNat 96 :: Char.ofNat 96 :: [] := by decide
        rw [htk] at hx
        simp only [List.cons_append, List.head?_cons, Option.some_inj] at hx
        subst hx
        decide
      | cons b0 body' =>
        simp only [List.cons_append, List.head?_cons, Option.some_inj] at hx
        subst hx
        exact hbody b0 rfl
    rw [hdw]
    have hassoc : body ++ (ticks ++ post) = body ++ ticks ++ post :=
      (List.append_assoc _ _ _).symm
    rw [hassoc, splitTicks_of_first hclose]

theorem hasBlockB_iff (opAt : Str → Bool) (k : Nat) (t : Str) :
    hasBlockB opAt k t = true ↔ HasBlock opAt k t := by
  unfold hasBlockB HasBlock
  simp only [List.any_eq_true, List.mem_range, Bool.and_eq_true, decide_eq_true_eq]
  constructor
  · rintro ⟨i, hi, hop, j, hj, hij, ht⟩
    exact ⟨i, by omega, hop, j, by omega, hij, ht⟩
  · rintro ⟨i, hi, hop, j, hj, hij, ht⟩
    exact ⟨i, by omega, hop, j, by omega, hij, ht⟩

theorem head_cons_not_space {c : Char} (hc : pyIsSpace c = false) (t : Str) :
    ∀ x, (c :: t).head? = some x → pyIsSpace x = false := by
  intro x hx
  simp only [List.head?_cons, Option.some_inj] at hx
  subst hx
  exact hc

/-- **C9.** SQL extraction precedence: a response decomposing around a
first `sql`-tagged fenced block yields that block's stripped contents; a
response with no tagged block but decomposing around a first untagged
fenced block yields that block's stripped contents; a response with no
fenced block at all yields the full stripped text. -/
theorem extract_sql_precedence_spec :
    (∀ pre O ws body post : Str,
      O.map Char.toLower = "```sql".data →
      (∀ c ∈ ws, pyIsSpace c = true) →
      (∀ x, body.head? = some x → pyIsSpace x = false) →
      (∀ i, i < pre.length →
        isTagAt ((pre ++ (O ++ (ws ++ (body ++ (ticks ++ post))))).drop i) = false) →
      (∀ m, m < body.length → isTicksAt ((body ++ ticks ++ post).drop m) = false) →
      extract_sql_from_text (pre ++ (O ++ (ws ++ (body ++ (ticks ++ post)))))
        = pyStrip body) ∧
    (∀ pre ws body post : Str,
      ¬ HasBlock isTagAt 6 (pre ++ (ticks ++ (ws ++ (body ++ (ticks ++ post))))) →
      (∀ c ∈ ws, pyIsSpace c = true) →
      (∀ x, body.head? = some x → pyIsSpace x = false) →
      (∀ i, i < pre.length →
        isTicksAt ((pre ++ (ticks ++ (ws ++ (body ++ (ticks ++ post))))).drop i) = false) →
      (∀ m, m < body.length → isTicksAt ((body ++ ticks ++ post).drop m) = false) →
      extract_sql_from_text (pre ++ (ticks ++ (ws ++ (body ++ (ticks ++ post)))))
        = pyStrip body) ∧
    (∀ t : Str, ¬ HasBlock isTagAt 6 t → ¬ HasBlock isTicksAt 3 t →
      extract_sql_from_text t = pyStrip t) := by
  refine ⟨?_, ?_, ?_⟩
  · intro pre O ws body post hO hws hbody hfirst hclose
    have hOlen : O.length = 6 := by
      have := congrArg List.length hO
      simpa using this
    have hop : isTagAt (O ++ (ws ++ (body ++ (ticks ++ post)))) = true := by
      simp only [isTagAt, beq_iff_eq]
      rw [← hOlen, List.take_left]
      exact hO
    have h1 : searchFence isTagAt 6 (pre ++ (O ++ (ws ++ (body ++ (ticks ++ post)))))
        = some body := by
      rw [searchFence_skip pre _ hfirst]
      exact searchFence_found hOlen
        (by intro hh; rw [hh] at hOlen; simp at hOlen) hop hws hbody hclose
    unfold extract_sql_from_text
    rw [h1]
  · intro pre ws body post hnotag hws hbody hfirst hclose
    have hs1 : searchFence isTagAt 6 (pre ++ (ticks ++ (ws ++ (body ++ (ticks ++ post)))))
        = none := by
      cases hscan : searchFence isTagAt 6
          (pre ++ (ticks ++ (ws ++ (body ++ (ticks ++ post))))) with
      | none => rfl
      | some b => exact absurd (searchFence_some_hasBlock _ b hscan) hnotag
    have hop : isTicksAt (ticks ++ (ws ++ (body ++ (ticks ++ post)))) = true := by
      simp only [isTicksAt, List.isPrefixOf_iff_prefix]
      exact List.prefix_append _ _
    have h2 : searchFence isTicksAt 3 (pre ++ (ticks ++ (ws ++ (body ++ (ticks ++ post)))))
        = some body := by
      rw [searchFence_skip pre _ hfirst]
      exact searchFence_found (by decide) (by decide) hop hws hbody hclose
    unfold extract_sql_from_text
    rw [hs1, h2]
  · intro t hnotag hnoany
    have hs1 : searchFence isTagAt 6 t = none := by
      cases hscan : searchFence isTagAt 6 t with
      | none => rfl
      | some b => exact absurd (searchFence_some_hasBlock t b hscan) hnotag
    have hs2 : searchFence isTicksAt 3 t = none := by
      cases hscan : searchFence isTicksAt 3 t with
      | none => rfl
      | some b => exact absurd (searchFence_some_hasBlock t b hscan) hnoany
    unfold extract_sql_from_text
    rw [hs1, hs2]

/-- Witness for C9: the three extraction cases at concrete responses
(the tagged case with mixed-case tag `` ```Sql ``). -/
theorem extract_sql_precedence_spec_witness :
    extract_sql_from_text ("x ".data
        ++ ("```Sql".data ++ ([' '] ++ ("select 1".data ++ (ticks ++ " y".data)))))
      = pyStrip "select 1".data ∧
    (¬ HasBlock isTagAt 6 ("a ".data
        ++ (ticks ++ ([' '] ++ ("select 2 ".data ++ (ticks ++ " b".data))))) ∧
     extract_sql_from_text ("a ".data
        ++ (ticks ++ ([' '] ++ ("select 2 ".data ++ (ticks ++ " b".data)))))
       = pyStrip "select 2 ".data) ∧
    extract_sql_from_text "select 3 plain".data = pyStrip "select 3 plain".data := by
  refine ⟨?_, ⟨by decide, ?_⟩, ?_⟩
  · exact extract_sql_precedence_spec.1 "x ".data "```Sql".data [' ']
      "select 1".data " y".data (by decide) (by decide)
      (head_cons_not_space (by decide) _) (by decide) (by decide)
  · exact extract_sql_precedence_spec.2.1 "a ".data [' ']
      "select 2 ".data " b".data (by decide) (by decide)
      (head_cons_not_space (by decide) _) (by decide) (by decide)
  · exact extract_sql_precedence_spec.2.2 "select 3 plain".data (by decide) (by decide)

/-! ### Claims on the client and the gateway -/

/-- **C10.** On the empty identifier list, `esummary`,
`fetch_with_abstracts` and the `efetch_pmids` compatibility wrapper each
return the empty record list immediately, with no outbound request and
no inter-call sleep in the effect trace. -/
theorem empty_pmids_no_requests :
    (∀ resp : SummaryResp, esummary [] resp = ([], [])) ∧
    (∀ sresp : SummaryResp, ∀ docs : List FtDoc,
      fetch_with_abstracts [] sresp docs = ([], [])) ∧
    (∀ resp : SummaryResp, efetch_pmids [] resp = ([], [])) :=
  ⟨fun _ => rfl, fun _ _ => rfl, fun _ => rfl⟩

theorem countP_le_one_of_nodup {p : Str} :
    ∀ {uids : List Str}, uids.Nodup → uids.countP (fun u => u == p) ≤ 1 := by
  intro uids
  induction uids with
  | nil => intro h; simp
  | cons u us ih =>
    intro hnd
    rw [List.countP_cons]
    obtain ⟨hmem, hnd'⟩ := List.nodup_cons.mp hnd
    by_cases he : u = p
    · subst he
      have hzero : us.countP (fun x => x == u) = 0 := by
        rw [List.countP_eq_zero]
        intro a ha hap
        rw [beq_iff_eq] at hap
        exact hmem (hap ▸ ha)
      simp [hzero]
    · simp only [beq_iff_eq, he]
      simpa using ih hnd'

/-- **C4 counterexample.** The code builds one record per uid of the
service response without validating it against the request: a response
listing uid `2` for the request `[1]` yields a record whose identifier
is not in the input list. -/
theorem esummary_foreign_uid_cex :
    ∃ r ∈ (esummary ["1".data] ⟨["2".data], []⟩).1, r.pmid ∉ ["1".data] := by
  decide

/-- **C4 (amended).** For a non-empty identifier list, whenever the
service response lists only requested identifiers and lists each at most
once, the summary fetch returns at most one record per identifier and
every returned record's identifier is a member of the input list. -/
theorem esummary_ids_spec (pmids : List Str) (resp : SummaryResp)
    (hne : pmids ≠ []) (hsub : ∀ u ∈ resp.uids, u ∈ pmids)
    (hnd : resp.uids.Nodup) :
    (∀ r ∈ (esummary pmids resp).1, r.pmid ∈ pmids) ∧
    (∀ p : Str, (esummary pmids resp).1.countP (fun r => r.pmid == p) ≤ 1) := by
  have hmap : (esummary pmids resp).1 = resp.uids.map (buildRec resp) := by
    unfold esummary
    rw [if_neg (by simp [isEmpty_false_of_ne hne])]
  constructor
  · intro r hr
    rw [hmap] at hr
    obtain ⟨u, hu, rfl⟩ := List.mem_map.mp hr
    exact hsub u hu
  · intro p
    rw [hmap, List.countP_map]
    have hfun : ((fun r : PubMedRecord => r.pmid == p) ∘ buildRec resp)
        = fun u => u == p := by
      funext u
      rfl
    rw [hfun]
    exact countP_le_one_of_nodup hnd

/-- Witness for the amended C4 at a concrete request and response. -/
theorem esummary_ids_spec_witness :
    (∀ r ∈ (esummary ["1".data, "2".data] ⟨["2".data], []⟩).1,
      r.pmid ∈ ["1".data, "2".data]) ∧
    (∀ p : Str, (esummary ["1".data, "2".data]
        ⟨["2".data], []⟩).1.countP (fun r => r.pmid == p) ≤ 1) :=
  esummary_ids_spec ["1".data, "2".data] ⟨["2".data], []⟩
    (by decide) (by decide) (by decide)

theorem mergeDocs_pmid_ne_nil (look : Str → Option PubMedRecord) :
    ∀ docs : List FtDoc, ∀ r ∈ mergeDocs look docs, r.pmid ≠ [] := by
  intro docs
  induction docs with
  | nil =>
    intro r hr
    exact absurd hr (by simp [mergeDocs])
  | cons d ds ih =>
    intro r hr
    cases hp : d.pmid with
    | none =>
      simp only [mergeDocs, hp] at hr
      exact ih r hr
    | some p =>
      simp only [mergeDocs, hp] at hr
      by_cases he : p.isEmpty
      · rw [if_pos he] at hr
        exact ih r hr
      · rw [if_neg he] at hr
        rcases List.mem_cons.mp hr with hhead | htail
        · subst hhead
          have hp' : p ≠ [] := by
            intro hnil
            exact he (by simp [hnil])
          cases hl : look p with
          | none => exact hp'
          | some m => exact hp'
        · exact ih r htail

/-- **C5 counterexample.** The summary path copies the response's uid
verbatim into the record identifier: a response whose uid list contains
the empty string produces an output record with an empty identifier. -/
theorem esummary_empty_identifier_cex :
    ∃ r ∈ (esummary ["1".data] ⟨[[]], []⟩).1, r.pmid = [] := by
  decide

/-- **C5 (amended).** Provided every uid in the service response is
non-empty, every record output by the summary path has a non-empty
identifier; the full-text path guarantees a non-empty identifier
unconditionally; and absence is propagated as `none`, never as an empty
string: a missing title/journal/pubdate/doi maps to `none`, the summary
path leaves the abstract `none`, authors never contain an empty name,
and a document with no abstract fragments gets abstract `none`. -/
theorem normalizer_absence_spec :
    (∀ pmids : List Str, ∀ resp : SummaryResp, (∀ u ∈ resp.uids, u ≠ []) →
      ∀ r ∈ (esummary pmids resp).1, r.pmid ≠ []) ∧
    (∀ pmids : List Str, ∀ sresp : SummaryResp, ∀ docs : List FtDoc,
      ∀ r ∈ (fetch_with_abstracts pmids sresp docs).1, r.pmid ≠ []) ∧
    (∀ resp : SummaryResp, ∀ uid : Str,
      ((lookupItem resp uid).title = none → (buildRec resp uid).title = none) ∧
      ((lookupItem resp uid).fulljournalname = none →
        (lookupItem resp uid).source = none → (buildRec resp uid).journal = none) ∧
      ((lookupItem resp uid).pubdate = none → (buildRec resp uid).pubdate = none) ∧
      ((lookupItem resp uid).articleids = [] → (buildRec resp uid).doi = none) ∧
      (buildRec resp uid).abstract = none ∧
      (∀ a ∈ (buildRec resp uid).authors, a ≠ [])) ∧
    (∀ d : FtDoc, d.frags = [] → abstractOf d = none) := by
  refine ⟨?_, ?_, ?_, ?_⟩
  · intro pmids resp hu r hr
    by_cases hp : pmids.isEmpty
    · rw [show esummary pmids resp = ([], []) from by
        unfold esummary; rw [if_pos hp]] at hr
      exact absurd hr (by simp)
    · have hm : (esummary pmids resp).1 = resp.uids.map (buildRec resp) := by
        unfold esummary
        rw [if_neg hp]
      rw [hm] at hr
      obtain ⟨u, huu, rfl⟩ := List.mem_map.mp hr
      exact hu u huu
  · intro pmids sresp docs r hr
    by_cases hp : pmids.isEmpty
    · rw [show fetch_with_abstracts pmids sresp docs = ([], []) from by
        unfold fetch_with_abstracts; rw [if_pos hp]] at hr
      exact absurd hr (by simp)
    · have hm : (fetch_with_abstracts pmids sresp docs).1
          = mergeDocs (lookupLast (esummary pmids sresp).1) docs := by
        unfold fetch_with_abstracts
        rw [if_neg hp]
      rw [hm] at hr
      exact mergeDocs_pmid_ne_nil _ docs r hr
  · intro resp uid
    refine ⟨fun h => h, ?_, fun h => h, ?_, rfl, ?_⟩
    · intro h1 h2
      show pyOr (lookupItem resp uid).fulljournalname (lookupItem resp uid).source = none
      rw [h1, h2]
      rfl
    · intro h
      show findDoi (lookupItem resp uid).articleids = none
      rw [h]
      rfl
    · intro a ha
      obtain ⟨x, hx, hxa⟩ := List.mem_map.mp ha
      have hxt : pyTruthy x = true := List.of_mem_filter hx
      cases x with
      | none => simp [pyTruthy] at hxt
      | some s =>
        have hs : s ≠ [] := by
          intro hnil
          subst hnil
          simp [pyTruthy] at hxt
        rw [← hxa]
        exact hs
  · intro d h
    unfold abstractOf
    rw [if_pos (by simp [h])]

/-- Witness for the amended C5 at concrete inputs. -/
theorem normalizer_absence_spec_witness :
    (∀ r ∈ (esummary ["3".data] ⟨["3".data], []⟩).1, r.pmid ≠ []) ∧
    (buildRec ⟨["3".data], []⟩ "3".data).journal = none ∧
    abstractOf ⟨some "3".data, []⟩ = none := by
  refine ⟨normalizer_absence_spec.1 ["3".data] ⟨["3".data], []⟩ (by decide), ?_, ?_⟩
  · exact (normalizer_absence_spec.2.2.1 ⟨["3".data], []⟩ "3".data).2.1
      (by decide) (by decide)
  · exact normalizer_absence_spec.2.2.2 ⟨some "3".data, []⟩ rfl

/-- **C6.** The full-text merge: each parsed document without a truthy
identifier is discarded; a document whose identifier matches the summary
lookup yields a record with the summary's title, authors, venue, date
and DOI plus the parsed abstract; an unmatched document still yields a
record with only the identifier and abstract populated (no error path
exists: the merge is a total function); and for a non-empty input the
full-text fetch is exactly this merge over the summary lookup. -/
theorem fetch_merge_spec :
    (∀ look : Str → Option PubMedRecord, ∀ docs : List FtDoc,
      mergeDocs look docs = docs.filterMap (fun d =>
        match d.pmid with
        | none => none
        | some p =>
          if p.isEmpty then none
          else some (match look p with
            | some m =>
              { pmid := p, title := m.title, authors := m.authors, journal := m.journal,
                pubdate := m.pubdate, doi := m.doi, abstract := abstractOf d }
            | none =>
              { pmid := p, title := none, authors := [], journal := none,
                pubdate := none, doi := none, abstract := abstractOf d }))) ∧
    (∀ pmids : List Str, ∀ sresp : SummaryResp, ∀ docs : List FtDoc, pmids ≠ [] →
      (fetch_with_abstracts pmids sresp docs).1
        = mergeDocs (lookupLast (esummary pmids sresp).1) docs) := by
  constructor
  · intro look docs
    induction docs with
    | nil => rfl
    | cons d ds ih =>
      cases hp : d.pmid with
      | none => simp [mergeDocs, List.filterMap_cons, hp, ih]
      | some p =>
        by_cases he : p = []
        · simp [mergeDocs, List.filterMap_cons, hp, he, ih]
        · simp [mergeDocs, List.filterMap_cons, hp, he, ih]
  · intro pmids sresp docs hne
    unfold fetch_with_abstracts
    rw [if_neg (by simp [isEmpty_false_of_ne hne])]

/-- Witness for C6's fetch conjunct at a concrete non-empty input. -/
theorem fetch_merge_spec_witness :
    (fetch_with_abstracts ["1".data] ⟨["1".data], []⟩
        [⟨some "1".data, []⟩, ⟨none, []⟩]).1
      = mergeDocs (lookupLast (esummary ["1".data] ⟨["1".data], []⟩).1)
          [⟨some "1".data, []⟩, ⟨none, []⟩] :=
  fetch_merge_spec.2 ["1".data] ⟨["1".data], []⟩
    [⟨some "1".data, []⟩, ⟨none, []⟩] (by decide)

theorem intercalate_pair (x y : Str) :
    List.intercalate ['\n'] [x, y] = x ++ '\n' :: y := by
  simp [List.intercalate, List.intersperse]

/-- **C7.** The abstract of a document with fragments is the
newline-separated concatenation of its fragment lines in document
order; a fragment with a (truthy) label contributes
`"<label>: <text>"`, an unlabeled fragment contributes its text
verbatim; fragments labeled `Background` and `Methods` join as
`"Background: <b>\n Methods: <m>"` (without the space). -/
theorem abstract_concat_spec :
    (∀ d : FtDoc, d.frags ≠ [] →
      abstractOf d = some (List.intercalate ['\n'] (d.frags.map fragLine))) ∧
    (∀ lab txt : Str, lab ≠ [] → pyStrip txt = txt →
      fragLine ⟨some lab, txt⟩ = lab ++ ':' :: ' ' :: txt) ∧
    (∀ txt : Str, pyStrip txt = txt → fragLine ⟨none, txt⟩ = txt) ∧
    (∀ b m : Str, pyStrip b = b → pyStrip m = m →
      abstractOf ⟨some "9".data,
          [⟨some "Background".data, b⟩, ⟨some "Methods".data, m⟩]⟩
        = some ("Background: ".data ++ b ++ '\n' :: "Methods: ".data ++ m)) := by
  refine ⟨?_, ?_, ?_, ?_⟩
  · intro d h
    unfold abstractOf
    rw [if_neg (by simp [h])]
  · intro lab txt hlab htxt
    show (if lab.isEmpty then pyStrip txt else lab ++ ':' :: ' ' :: pyStrip txt)
      = lab ++ ':' :: ' ' :: txt
    rw [isEmpty_false_of_ne hlab, htxt]
    simp
  · intro txt htxt
    show pyStrip txt = txt
    exact htxt
  · intro b m hb hm
    have h1 : fragLine ⟨some "Background".data, b⟩ = "Background: ".data ++ b := by
      show "Background".data ++ ':' :: ' ' :: pyStrip b = "Background: ".data ++ b
      rw [hb]
      rfl
    have h2 : fragLine ⟨some "Methods".data, m⟩ = "Methods: ".data ++ m := by
      show "Methods".data ++ ':' :: ' ' :: pyStrip m = "Methods: ".data ++ m
      rw [hm]
      rfl
    show some (List.intercalate ['\n']
      [fragLine ⟨some "Background".data, b⟩, fragLine ⟨some "Methods".data, m⟩]) = _
    rw [h1, h2, intercalate_pair]
    simp [List.append_assoc]

/-- Witness for C7 at concrete fragments. -/
theorem abstract_concat_spec_witness :
    abstractOf ⟨some "5".data,
        [⟨some "Background".data, "bb".data⟩, ⟨some "Methods".data, "mm".data⟩]⟩
      = some ("Background: ".data ++ "bb".data ++ '\n' :: "Methods: ".data ++ "mm".data) ∧
    fragLine ⟨some "Lab".data, "tt".data⟩ = "Lab".data ++ ':' :: ' ' :: "tt".data ∧
    fragLine ⟨(none : Option Str), "uu".data⟩ = "uu".data ∧
    abstractOf ⟨some "5".data, [⟨some "Background".data, "bb".data⟩]⟩
      = some (List.intercalate ['\n']
          (([⟨some "Background".data, "bb".data⟩] : List AbsFrag).map fragLine)) := by
  refine ⟨abstract_concat_spec.2.2.2 "bb".data "mm".data (by decide) (by decide),
    abstract_concat_spec.2.1 "Lab".data "tt".data (by decide) (by decide),
    abstract_concat_spec.2.2.1 "uu".data (by decide),
    abstract_concat_spec.1 ⟨some "5".data, [⟨some "Background".data, "bb".data⟩]⟩
      (by decide)⟩

theorem upsert_count_aux (records : List PubMedRecord) :
    ∀ st : List ArticleRow × Nat,
      (records.foldl (fun st rec => (upsertOne st.1 rec, st.2 + 1)) st).2
        = st.2 + records.length := by
  induction records with
  | nil => intro st; simp
  | cons r rs ih =>
    intro st
    simp only [List.foldl_cons, List.length_cons]
    rw [ih]
    omega

/-- **C8.** Saving records upserts each one by identifier with
last-write-wins semantics: the call returns the number of records
processed; a record with an unseen identifier is appended as a new row;
a record whose identifier already has a row overwrites every
descriptive field of that row (and only that row) while keeping its
identifier; any stored row carrying a record's identifier holds exactly
that record's fields; and saving two records with the same identifier
leaves the second one's fields, even when they are `None`. -/
theorem upsert_lww_spec :
    (∀ db : List ArticleRow, ∀ records : List PubMedRecord,
      (save_records db records).2 = records.length) ∧
    (∀ db : List ArticleRow, ∀ r : PubMedRecord, findRow db r.pmid = none →
      upsertOne db r = db ++ [rowOf r]) ∧
    (∀ db : List ArticleRow, ∀ r : PubMedRecord, ∀ row₀ : ArticleRow,
      findRow db r.pmid = some row₀ →
      upsertOne db r
        = db.map (fun row => if row.pmid == r.pmid then overwriteRow row r else row)) ∧
    (∀ db : List ArticleRow, ∀ r : PubMedRecord, ∀ row ∈ upsertOne db r,
      row.pmid = r.pmid →
        row.title = r.title ∧ row.authors = r.authors ∧ row.journal = r.journal ∧
        row.pubdate = r.pubdate ∧ row.doi = r.doi ∧ row.abstract = r.abstract) ∧
    (findRow (save_records []
        [⟨"1".data, some "A".data, [], none, none, none, none⟩,
         ⟨"1".data, none, [], none, none, none, none⟩]).1 "1".data
      = some ⟨"1".data, none, [], none, none, none, none⟩) := by
  refine ⟨?_, ?_, ?_, ?_, by decide⟩
  · intro db records
    show (records.foldl (fun st rec => (upsertOne st.1 rec, st.2 + 1)) (db, 0)).2
      = records.length
    rw [upsert_count_aux]
    exact Nat.zero_add records.length
  · intro db r h
    have h' : db.find? (fun row => row.pmid == r.pmid) = none := h
    simp only [upsertOne, h']
  · intro db r row₀ h
    have h' : db.find? (fun row => row.pmid == r.pmid) = some row₀ := h
    simp only [upsertOne, h']
  · intro db r row hmem hpm
    cases hf : db.find? (fun row => row.pmid == r.pmid) with
    | none =>
      simp only [upsertOne, hf] at hmem
      rcases List.mem_append.mp hmem with hin | hin
      · have := List.find?_eq_none.mp hf row hin
        simp [hpm] at this
      · simp only [List.mem_singleton] at hin
        subst hin
        exact ⟨rfl, rfl, rfl, rfl, rfl, rfl⟩
    | some w =>
      simp only [upsertOne, hf] at hmem
      rcases List.mem_map.mp hmem with ⟨row1, hrow1, heq⟩
      by_cases hc : (row1.pmid == r.pmid) = true
      · rw [if_pos hc] at heq
        subst heq
        exact ⟨rfl, rfl, rfl, rfl, rfl, rfl⟩
      · rw [if_neg hc] at heq
        subst heq
        exact absurd hpm (by simpa using hc)

/-- Witness for C8's hypothesized conjuncts at concrete rows. -/
theorem upsert_lww_spec_witness :
    upsertOne [(⟨"2".data, some "B".data, [], none, none, none, none⟩ : ArticleRow)]
        ⟨"3".data, some "C".data, [], none, none, none, none⟩
      = [(⟨"2".data, some "B".data, [], none, none, none, none⟩ : ArticleRow)]
          ++ [rowOf ⟨"3".data, some "C".data, [], none, none, none, none⟩] ∧
    upsertOne [(⟨"2".data, some "B".data, [], none, none, none, none⟩ : ArticleRow)]
        ⟨"2".data, none, [], none, none, none, none⟩
      = [(⟨"2".data, some "B".data, [], none, none, none, none⟩ : ArticleRow)].map
          (fun row => if row.pmid == (⟨"2".data, none, [], none, none, none, none⟩
              : PubMedRecord).pmid
            then overwriteRow row ⟨"2".data, none, [], none, none, none, none⟩ else row) ∧
    ((overwriteRow ⟨"2".data, some "B".data, [], none, none, none, none⟩
          ⟨"2".data, none, [], none, none, none, none⟩).title
        = (⟨"2".data, none, [], none, none, none, none⟩ : PubMedRecord).title ∧
      (overwriteRow ⟨"2".data, some "B".data, [], none, none, none, none⟩
          ⟨"2".data, none, [], none, none, none, none⟩).authors
        = (⟨"2".data, none, [], none, none, none, none⟩ : PubMedRecord).authors ∧
      (overwriteRow ⟨"2".data, some "B".data, [], none, none, none, none⟩
          ⟨"2".data, none, [], none, none, none, none⟩).journal
        = (⟨"2".data, none, [], none, none, none, none⟩ : PubMedRecord).journal ∧
      (overwriteRow ⟨"2".data, some "B".data, [], none, none, none, none⟩
          ⟨"2".data, none, [], none, none, none, none⟩).pubdate
        = (⟨"2".data, none, [], none, none, none, none⟩ : PubMedRecord).pubdate ∧
      (overwriteRow ⟨"2".data, some "B".data, [], none, none, none, none⟩
          ⟨"2".data, none, [], none, none, none, none⟩).doi
        = (⟨"2".data, none, [], none, none, none, none⟩ : PubMedRecord).doi ∧
      (overwriteRow ⟨"2".data, some "B".data, [], none, none, none, none⟩
          ⟨"2".data, none, [], none, none, none, none⟩).abstract
        = (⟨"2".data, none, [], none, none, none, none⟩ : PubMedRecord).abstract) :=
  ⟨upsert_lww_spec.2.1 [⟨"2".data, some "B".data, [], none, none, none, none⟩]
      ⟨"3".data, some "C".data, [], none, none, none, none⟩ (by decide),
   upsert_lww_spec.2.2.1 [⟨"2".data, some "B".data, [], none, none, none, none⟩]
      ⟨"2".data, none, [], none, none, none, none⟩
      ⟨"2".data, some "B".data, [], none, none, none, none⟩ (by decide),
   upsert_lww_spec.2.2.2.1 [⟨"2".data, some "B".data, [], none, none, none, none⟩]
      ⟨"2".data, none, [], none, none, none, none⟩
      (overwriteRow ⟨"2".data, some "B".data, [], none, none, none, none⟩
        ⟨"2".data, none, [], none, none, none, none⟩) (by decide) (by decide)⟩
